import Mathlib

/-!
Verification of the hue-histogram color-analysis core.

The source is a TypeScript library: color-space conversions (RGB/HSL),
a weighted circular hue histogram builder, a circular Gaussian smoother,
and a peak-extraction engine (local maxima, valleys, adjacent merging
under a cap, perceptual fusion, low-weight filtering).

Modelling conventions:
* JavaScript numbers are modelled as exact rationals (`ℚ`) in the
  computable pipeline, and as reals (`ℝ`) for the Gaussian smoother,
  whose kernel uses `exp`.  `Math.round` is `round` (`⌊x + 1/2⌋`),
  `Math.floor` is `Int.floor`.
* Arrays are `List`s; reads use `getD` with default `0` (in-range reads
  are the only ones the control flow performs on well-formed input).
* The source's `while` walks are modelled with an explicit fuel argument
  (fuel = array length always suffices; the walks step through circular
  indices and stop at a designated index).
* The CIEDE2000 acceptance test inside the perceptual-fusion stage
  applies transcendental functions (`exp`, `cos`, `atan2`, `sqrt`,
  `pow 2.4`) to floating-point numbers; it is abstracted as a Boolean
  parameter `close` of the fusion stage.  All concrete evaluations below
  use inputs whose peak hues are pairwise more than 30 apart, where the
  source short-circuits before consulting CIEDE2000, so the abstraction
  is never exercised on them.
-/

set_option maxRecDepth 100000

namespace HueHist

/-- RGB → HSL from the source: channels are divided by 255, lightness is
the mid-range, saturation and hue follow the standard piecewise formulas,
and all three outputs pass through `Math.round`.  The `switch (max)`
statement matches `case r` first, then `case g`, then `case b`. -/
def rgbToHsl (r g b : ℚ) : ℤ × ℤ × ℤ :=
  let r' := r / 255
  let g' := g / 255
  let b' := b / 255
  let maxC := max r' (max g' b')
  let minC := min r' (min g' b')
  let l := (maxC + minC) / 2
  if maxC = minC then
    (0, 0, round (l * 100))
  else
    let d := maxC - minC
    let s := if l > 1/2 then d / (2 - maxC - minC) else d / (maxC + minC)
    let h :=
      if maxC = r' then ((g' - b') / d + (if g' < b' then (6:ℚ) else 0)) / 6
      else if maxC = g' then ((b' - r') / d + 2) / 6
      else ((r' - g') / d + 4) / 6
    (round (h * 360), round (s * 100), round (l * 100))

/-- Helper `hue2rgb` closure from the source's `hslToRgb`. -/
def hue2rgb (p q t : ℚ) : ℚ :=
  let t1 := if t < 0 then t + 1 else t
  let t2 := if t1 > 1 then t1 - 1 else t1
  if t2 < 1/6 then p + (q - p) * 6 * t2
  else if t2 < 1/2 then q
  else if t2 < 2/3 then p + (q - p) * (2/3 - t2) * 6
  else p

/-- HSL → RGB from the source: inputs are divided by 360/100/100, the
achromatic branch (`s == 0`) returns the lightness on all channels,
otherwise `q`/`p` are formed and each channel is `hue2rgb` at a shifted
hue; outputs pass through `Math.round` after scaling by 255. -/
def hslToRgb (h s l : ℚ) : ℤ × ℤ × ℤ :=
  let h' := h / 360
  let s' := s / 100
  let l' := l / 100
  if s' = 0 then
    (round (l' * 255), round (l' * 255), round (l' * 255))
  else
    let q := if l' < 1/2 then l' * (1 + s') else l' + s' - l' * s'
    let p := 2 * l' - q
    (round (hue2rgb p q (h' + 1/3) * 255),
     round (hue2rgb p q h' * 255),
     round (hue2rgb p q (h' - 1/3) * 255))

/-- Round trip: convert an RGB triple to rounded HSL and back. -/
def roundTrip (r g b : ℚ) : ℤ × ℤ × ℤ :=
  let hsl := rgbToHsl r g b
  hslToRgb (hsl.1 : ℚ) (hsl.2.1 : ℚ) (hsl.2.2 : ℚ)

/-- The piecewise-linear interpolation factor underlying `hue2rgb` after
the circular wrap: `hue2rgb p q t = p + (q - p) * lam0 (wrapped t)`. -/
def lam0 (u : ℚ) : ℚ :=
  if u < 1/6 then 6 * u
  else if u < 1/2 then 1
  else if u < 2/3 then (2/3 - u) * 6
  else 0

/-- The circular wrap applied by `hue2rgb` to its hue argument. -/
def wrapT (t : ℚ) : ℚ :=
  let t1 := if t < 0 then t + 1 else t
  if t1 > 1 then t1 - 1 else t1

def lamW (t : ℚ) : ℚ := lam0 (wrapT t)

/-- The exact (pre-rounding) normalized quantities computed by `rgbToHsl`. -/
def maxCof (r g b : ℚ) : ℚ := max (r / 255) (max (g / 255) (b / 255))

def minCof (r g b : ℚ) : ℚ := min (r / 255) (min (g / 255) (b / 255))

def lVal (r g b : ℚ) : ℚ := (maxCof r g b + minCof r g b) / 2

def dVal (r g b : ℚ) : ℚ := maxCof r g b - minCof r g b

def satVal (r g b : ℚ) : ℚ :=
  if lVal r g b > 1/2 then dVal r g b / (2 - maxCof r g b - minCof r g b)
  else dVal r g b / (maxCof r g b + minCof r g b)

def hueVal (r g b : ℚ) : ℚ :=
  if maxCof r g b = r / 255 then
    ((g / 255 - b / 255) / dVal r g b + (if g / 255 < b / 255 then (6:ℚ) else 0)) / 6
  else if maxCof r g b = g / 255 then ((b / 255 - r / 255) / dVal r g b + 2) / 6
  else ((r / 255 - g / 255) / dVal r g b + 4) / 6

/-- Normalized Gaussian kernel from the source: the values
`exp(-(i²)/(2σ²))` for `i` from `-half` to `half` (`half = ⌊size/2⌋`,
so the list has `2*half + 1` entries), each divided by their sum. -/
noncomputable def generateGaussianKernel (sigma : ℝ) (size : ℕ) : List ℝ :=
  let half := size / 2
  let kernel := (List.range (2 * half + 1)).map
    (fun (i : ℕ) => Real.exp (-(((i : ℝ) - (half : ℝ)) ^ 2) / (2 * sigma * sigma)))
  kernel.map (fun v => v / kernel.sum)

/-- Circular Gaussian smoother from the source: kernel size
`min(ceil(sigma*6) | 1, n)` (the bitwise-or forces the first operand
odd), and `result[i] = Σ_{j < kernelSize} histogram[(i + j - half + n) % n] * kernel[j]`
(the index is written `i + j + n - half`, equal to the source's since
`half ≤ n`). -/
noncomputable def gaussianSmooth (histogram : List ℝ) (sigma : ℝ) : List ℝ :=
  let n := histogram.length
  let kernelSize := min (⌈sigma * 6⌉.toNat ||| 1) n
  let kernel := generateGaussianKernel sigma kernelSize
  let half := kernelSize / 2
  (List.range n).map (fun (i : ℕ) =>
    ∑ j ∈ Finset.range kernelSize, histogram.getD ((i + j + n - half) % n) 0 * kernel.getD j 0)

/-- Circular index from the source: `((i % n) + n) % n`, converted to a
natural number for list indexing. -/
def circularIndex (i : ℤ) (n : ℕ) : ℕ := (((i % n) + n) % n).toNat

/-- Histogram data: three parallel arrays indexed by hue bin. -/
structure HistogramData where
  histogram : List ℚ
  saturationSum : List ℚ
  lightnessSum : List ℚ
deriving Repr, DecidableEq

/-- Final color cluster exported by the peak extractor. -/
structure HuePeak where
  startHue : ℕ
  endHue : ℕ
  peakHue : ℕ
  peakValue : ℚ
  totalWeight : ℚ
  avgSaturation : ℚ
  avgLightness : ℚ
deriving Repr, DecidableEq

/-- Transient local-peak record.  The valley fields carry the source's
`-1` sentinel until `findValleys` fills them, hence `ℤ`. -/
structure LocalPeak where
  index : ℕ
  value : ℚ
  leftValley : ℤ
  rightValley : ℤ
deriving Repr, DecidableEq

/-- One RGBA sample of the pixel buffer (four consecutive bytes of the
source's `imageData.data`). -/
structure Pixel where
  r : ℕ
  g : ℕ
  b : ℕ
  a : ℕ
deriving Repr, DecidableEq

/-- Weight of a kept pixel: `(saturation / 100) * (1 - |lightness - 50| / 50)`. -/
def pixelWeight (px : Pixel) : ℚ :=
  let hsl := rgbToHsl (px.r : ℚ) (px.g : ℚ) (px.b : ℚ)
  ((hsl.2.1 : ℚ) / 100) * (1 - |(hsl.2.2 : ℚ) - 50| / 50)

/-- Bin of a kept pixel: `floor(hue / (360 / bins)) % bins`. -/
def pixelBin (bins : ℕ) (px : Pixel) : ℕ :=
  let hsl := rgbToHsl (px.r : ℚ) (px.g : ℚ) (px.b : ℚ)
  ((⌊(hsl.1 : ℚ) / (360 / (bins : ℚ))⌋ % (bins : ℤ)).toNat)

/-- Saturation of a pixel, as accumulated into `saturationSum`. -/
def pixelSat (px : Pixel) : ℚ :=
  ((rgbToHsl (px.r : ℚ) (px.g : ℚ) (px.b : ℚ)).2.1 : ℚ)

/-- Lightness of a pixel, as accumulated into `lightnessSum`. -/
def pixelLight (px : Pixel) : ℚ :=
  ((rgbToHsl (px.r : ℚ) (px.g : ℚ) (px.b : ℚ)).2.2 : ℚ)

/-- A pixel is kept when its alpha is at least 200 and its HSL values
pass the saturation/lightness filters. -/
def pixelKeep (px : Pixel) : Prop :=
  let hsl := rgbToHsl (px.r : ℚ) (px.g : ℚ) (px.b : ℚ)
  200 ≤ px.a ∧ 10 ≤ hsl.2.1 ∧ 5 ≤ hsl.2.2 ∧ hsl.2.2 ≤ 95

instance (px : Pixel) : Decidable (pixelKeep px) := by
  unfold pixelKeep; infer_instance

/-- One iteration of the histogram builder's pixel loop: skip transparent
pixels (`alpha < 200`), skip near-gray and extreme-lightness pixels
(`saturation < 10`, `lightness < 5` or `> 95`), otherwise accumulate the
weight into the pixel's bin of the three arrays. -/
def histStep (bins : ℕ) (st : HistogramData) (px : Pixel) : HistogramData :=
  if px.a < 200 then st
  else
    let hsl := rgbToHsl (px.r : ℚ) (px.g : ℚ) (px.b : ℚ)
    if hsl.2.1 < 10 ∨ hsl.2.2 < 5 ∨ hsl.2.2 > 95 then st
    else
      let weight := pixelWeight px
      let binIndex := pixelBin bins px
      { histogram := st.histogram.set binIndex (st.histogram.getD binIndex 0 + weight),
        saturationSum :=
          st.saturationSum.set binIndex
            (st.saturationSum.getD binIndex 0 + (hsl.2.1 : ℚ) * weight),
        lightnessSum :=
          st.lightnessSum.set binIndex
            (st.lightnessSum.getD binIndex 0 + (hsl.2.2 : ℚ) * weight) }

/-- Histogram builder: fold the pixel loop over the buffer starting from
three zero-filled arrays of length `bins`. -/
def extractHueHistogram (pixels : List Pixel) (bins : ℕ) : HistogramData :=
  pixels.foldl (histStep bins)
    ⟨List.replicate bins 0, List.replicate bins 0, List.replicate bins 0⟩

/-- Local-maxima scan: bin `i` is a peak when
`(curr > prev && curr >= next) || (curr >= prev && curr > next)` with
circular neighbors. -/
def findLocalPeaks (histogram : List ℚ) : List LocalPeak :=
  let n := histogram.length
  (List.range n).filterMap (fun (i : ℕ) =>
    let prev := histogram.getD (circularIndex ((i : ℤ) - 1) n) 0
    let curr := histogram.getD i 0
    let next := histogram.getD (circularIndex ((i : ℤ) + 1) n) 0
    if (curr > prev ∧ curr ≥ next) ∨ (curr ≥ prev ∧ curr > next) then
      some ⟨i, curr, -1, -1⟩
    else none)

/-- Placeholder record used as the default of out-of-range list reads of
peak lists (such reads do not occur on the control paths exercised). -/
def dummyPeak : LocalPeak := ⟨0, 0, -1, -1⟩

/-- Valley-walk loop of `findValleys`: starting at `j`, repeatedly step
(circularly) until the stopping peak index, keeping the index of the
first strictly smallest value seen.  `fuel` bounds the iteration count;
the callers pass `fuel = n`, which is enough for the walk to reach its
stopping index. -/
def valleyWalk (histogram : List ℚ) (step : ℕ → ℕ) (stopIdx : ℕ) :
    ℕ → ℕ → ℚ → ℕ → ℕ
  | _, bestIdx, _, 0 => bestIdx
  | j, bestIdx, bestVal, fuel+1 =>
    if j = stopIdx then bestIdx
    else if histogram.getD j 0 < bestVal then
      valleyWalk histogram step stopIdx (step j) j (histogram.getD j 0) fuel
    else
      valleyWalk histogram step stopIdx (step j) bestIdx bestVal fuel

/-- Valley assignment: a single peak owns the whole ring
(`leftValley = peak+1`, `rightValley = peak`); otherwise each peak walks
left to its predecessor peak and right to its successor peak, taking the
minimum-valued strictly-between bin on each side (the peak itself is the
fallback when no bin is smaller). -/
def findValleys (peaks : List LocalPeak) (histogram : List ℚ) : List LocalPeak :=
  let n := histogram.length
  if peaks.length = 1 then
    peaks.map (fun p =>
      { p with leftValley := (circularIndex ((p.index : ℤ) + 1) n : ℤ),
               rightValley := (p.index : ℤ) })
  else
    (List.range peaks.length).map (fun i =>
      let peak := peaks.getD i dummyPeak
      let prevPeak := peaks.getD (circularIndex ((i : ℤ) - 1) peaks.length) dummyPeak
      let nextPeak := peaks.getD (circularIndex ((i : ℤ) + 1) peaks.length) dummyPeak
      let lv := valleyWalk histogram (fun j => circularIndex ((j : ℤ) - 1) n)
        prevPeak.index (circularIndex ((peak.index : ℤ) - 1) n) peak.index peak.value n
      let rv := valleyWalk histogram (fun j => circularIndex ((j : ℤ) + 1) n)
        nextPeak.index (circularIndex ((peak.index : ℤ) + 1) n) peak.index peak.value n
      { peak with leftValley := (lv : ℤ), rightValley := (rv : ℤ) })

/-- Circular distance between two bin indices, in bins: `min(diff, n - diff)`. -/
def hueDistance (n idx1 idx2 : ℕ) : ℕ :=
  let diff := ((idx2 : ℤ) - idx1).natAbs
  min diff (n - diff)

/-- Loop body of the best-pair scan of the adjacent-merge loop: score
the cyclically adjacent pair at `i` when its smaller peak is positive by
`(valley / min peaks) * (0.5 + 0.5 * (1 - distance / (n/2)))` and keep
the running best on a strict improvement. -/
def bestPairStep (histogram : List ℚ) (peaks : List LocalPeak)
    (best : ℚ × Option ℕ) (i : ℕ) : ℚ × Option ℕ :=
  let n := histogram.length
  let curr := peaks.getD i dummyPeak
  let next := peaks.getD ((i + 1) % peaks.length) dummyPeak
  let valleyValue := histogram.getD curr.rightValley.toNat 0
  let minPeakValue := min curr.value next.value
  if 0 < minPeakValue then
    let valleyRatio := valleyValue / minPeakValue
    let distance := hueDistance n curr.index next.index
    let distanceFactor := 1 - (distance : ℚ) / ((n : ℚ) / 2)
    let score := valleyRatio * (1/2 + 1/2 * distanceFactor)
    if best.1 < score then (score, some i) else best
  else best

/-- One scan of the adjacent-merge loop over all cyclically adjacent
pairs; returns the first highest score with its pair index (`none`
models the source's `bestIdx = -1`). -/
def findBestPair (histogram : List ℚ) (peaks : List LocalPeak) : ℚ × Option ℕ :=
  (List.range peaks.length).foldl (bestPairStep histogram peaks) (-1, none)

/-- Merge the adjacent pair at `i`: the lower peak is absorbed into the
higher one, which inherits the absorbed side's valley boundary. -/
def mergeOnce (peaks : List LocalPeak) (i : ℕ) : List LocalPeak :=
  let nextIdx := (i + 1) % peaks.length
  let curr := peaks.getD i dummyPeak
  let next := peaks.getD nextIdx dummyPeak
  if next.value ≤ curr.value then
    (peaks.set i { curr with rightValley := next.rightValley }).eraseIdx nextIdx
  else
    (peaks.set nextIdx { next with leftValley := curr.leftValley }).eraseIdx i

/-- Merge loop: while the peak count exceeds `maxPeaks` and a scoreable
pair exists, merge the best pair.  `fuel` bounds the iterations; the
caller passes the initial length, which always suffices because each
merge removes one peak. -/
def mergeAdjacentPeaksFuel (histogram : List ℚ) (maxPeaks : ℕ) :
    ℕ → List LocalPeak → List LocalPeak
  | 0, peaks => peaks
  | fuel+1, peaks =>
    if peaks.length ≤ maxPeaks then peaks
    else
      match (findBestPair histogram peaks).2 with
      | none => peaks
      | some i => mergeAdjacentPeaksFuel histogram maxPeaks fuel (mergeOnce peaks i)

/-- Adjacent-peak merging under the `maxPeaks` cap. -/
def mergeAdjacentPeaks (peaks : List LocalPeak) (histogram : List ℚ)
    (maxPeaks : ℕ) : List LocalPeak :=
  mergeAdjacentPeaksFuel histogram maxPeaks peaks.length peaks

/-- Aggregation walk of `convertToHuePeaks`: add `arr[j]`, stop when `j`
reaches `endIdx`, else step to `circularIndex (j+1) n`.  The source runs
one loop accumulating all three arrays; it is modelled as one walk per
array over the same index sequence.  `fuel = n` suffices. -/
def arcLoop (arr : List ℚ) (n endIdx : ℕ) : ℕ → ℕ → ℚ
  | j, 0 => arr.getD j 0
  | j, fuel+1 =>
    if j = endIdx then arr.getD j 0
    else arr.getD j 0 + arcLoop arr n endIdx (circularIndex ((j : ℤ) + 1) n) fuel

/-- Range aggregation: each surviving local peak becomes a cluster whose
weights are summed over the `[leftValley, rightValley]` circular arc;
averages default to 50 on zero total weight. -/
def convertToHuePeaks (localPeaks : List LocalPeak)
    (histogram saturationSum lightnessSum : List ℚ) : List HuePeak :=
  let n := histogram.length
  localPeaks.map (fun peak =>
    let startHue := circularIndex peak.leftValley n
    let endHue := circularIndex peak.rightValley n
    let totalWeight := arcLoop histogram n endHue startHue n
    let totalSat := arcLoop saturationSum n endHue startHue n
    let totalLight := arcLoop lightnessSum n endHue startHue n
    { startHue := startHue, endHue := endHue, peakHue := peak.index,
      peakValue := peak.value,
      totalWeight := totalWeight,
      avgSaturation := if 0 < totalWeight then totalSat / totalWeight else 50,
      avgLightness := if 0 < totalWeight then totalLight / totalWeight else 50 })

/-- Insert into a list sorted descending by `key`, before the first
element whose key is not larger — the stable position that matches the
source's stable `Array.prototype.sort`. -/
def insertByDesc (key : HuePeak → ℚ) (x : HuePeak) : List HuePeak → List HuePeak
  | [] => [x]
  | y :: ys => if key y ≤ key x then x :: y :: ys else y :: insertByDesc key x ys

/-- Stable sort, descending by `key` (models
`peaks.sort((a, b) => b.key - a.key)`). -/
def sortByDesc (key : HuePeak → ℚ) (l : List HuePeak) : List HuePeak :=
  l.foldr (insertByDesc key) []

/-- Circular hue difference used by perceptual fusion:
`min(|h1 - h2|, 360 - |h1 - h2|)` (peak hues are bin indices; the
constant 360 is the source's). -/
def hueDiff360 (h1 h2 : ℕ) : ℤ :=
  let diff : ℤ := ((h1 : ℤ) - h2).natAbs
  min diff (360 - diff)

/-- Circular membership test of `mergeHueRanges`. -/
def inRangeHue (h s e : ℕ) : Bool :=
  if s ≤ e then decide (s ≤ h ∧ h ≤ e) else decide (s ≤ h ∨ h ≤ e)

/-- Arc union of perceptual fusion: keep a containing arc if one contains
both endpoints of the other, otherwise join `s1→e2` or `s2→e1`,
whichever circular span is shorter. -/
def mergeHueRanges (s1 e1 s2 e2 : ℕ) : ℕ × ℕ :=
  if inRangeHue s2 s1 e1 ∧ inRangeHue e2 s1 e1 then (s1, e1)
  else if inRangeHue s1 s2 e2 ∧ inRangeHue e1 s2 e2 then (s2, e2)
  else
    let span1 : ℤ := if s1 ≤ e2 then (e2 : ℤ) - s1 else 360 - s1 + e2
    let span2 : ℤ := if s2 ≤ e1 then (e1 : ℤ) - s2 else 360 - s2 + e1
    if span1 ≤ span2 then (s1, e2) else (s2, e1)

/-- Fold `peak` into the accepted cluster `target`: weights add, averages
combine weighted by relative total weight, the identity (peak hue/value)
of the taller peak wins, arcs are unioned.  (On `totalW = 0` the source's
averages are `NaN`; here the division yields `0` — no modelled claim
depends on that value.) -/
def fusePeaks (target peak : HuePeak) : HuePeak :=
  let w1 := target.totalWeight
  let w2 := peak.totalWeight
  let totalW := w1 + w2
  let r := mergeHueRanges target.startHue target.endHue peak.startHue peak.endHue
  { startHue := r.1, endHue := r.2,
    peakHue := if target.peakValue < peak.peakValue then peak.peakHue else target.peakHue,
    peakValue := if target.peakValue < peak.peakValue then peak.peakValue else target.peakValue,
    totalWeight := totalW,
    avgSaturation := (target.avgSaturation * w1 + peak.avgSaturation * w2) / totalW,
    avgLightness := (target.avgLightness * w1 + peak.avgLightness * w2) / totalW }

/-- First accepted cluster (if any) that `peak` fuses into: hue
difference at most 30 and the abstracted CIEDE2000 acceptance `close`. -/
def findFuseTarget (close : HuePeak → HuePeak → Bool) (merged : List HuePeak)
    (peak : HuePeak) : Option ℕ :=
  merged.findIdx? (fun existing =>
    decide (hueDiff360 peak.peakHue existing.peakHue ≤ 30) && close peak existing)

/-- Perceptual fusion: greedily fold each cluster into the first
acceptable already-accepted cluster, else append it as a new entry. -/
def mergeSimilarColors (close : HuePeak → HuePeak → Bool)
    (peaks : List HuePeak) : List HuePeak :=
  peaks.foldl (fun merged peak =>
    match findFuseTarget close merged peak with
    | some k => merged.set k (fusePeaks (merged.getD k peak) peak)
    | none => merged ++ [peak]) []

/-- Low-weight filter: keep clusters whose weight is at least
`minRatio` of the summed cluster weights. -/
def filterByWeight (peaks : List HuePeak) (minRatio : ℚ) : List HuePeak :=
  let total := (peaks.map HuePeak.totalWeight).sum
  peaks.filter (fun p => total * minRatio ≤ p.totalWeight)

/-- Main peak-extraction pipeline.  `close` abstracts the CIEDE2000
acceptance test of the fusion stage (see the module comment). -/
def extractPeaks (close : HuePeak → HuePeak → Bool)
    (histogramData : HistogramData) (maxPeaks : ℕ) : List HuePeak :=
  let histogram := histogramData.histogram
  let n := histogram.length
  if n = 0 then []
  else
    let localPeaks := findLocalPeaks histogram
    if localPeaks.length = 0 then
      let maxVal := histogram.foldl max (histogram.headD 0)
      let maxIdx := histogram.indexOf maxVal
      let totalWeight := histogram.sum
      let totalSat := histogramData.saturationSum.sum
      let totalLight := histogramData.lightnessSum.sum
      [{ startHue := 0, endHue := 0, peakHue := maxIdx,
         peakValue := histogram.getD maxIdx 0,
         totalWeight := totalWeight,
         avgSaturation := if 0 < totalWeight then totalSat / totalWeight else 50,
         avgLightness := if 0 < totalWeight then totalLight / totalWeight else 50 }]
    else
      let valleyPeaks := findValleys localPeaks histogram
      let mergedPeaks := mergeAdjacentPeaks valleyPeaks histogram maxPeaks
      let peaks1 := convertToHuePeaks mergedPeaks histogram
        histogramData.saturationSum histogramData.lightnessSum
      let peaks2 := sortByDesc HuePeak.peakValue peaks1
      let peaks3 := mergeSimilarColors close peaks2
      let peaks4 := filterByWeight peaks3 (1/100)
      sortByDesc HuePeak.totalWeight peaks4

/-- Sum of the cluster weights of an extraction result. -/
def sumTotalWeights (peaks : List HuePeak) : ℚ :=
  (peaks.map HuePeak.totalWeight).sum

/-- Sum of `weight[i]` for `i` traversing the circular arc from `s` to
`e` inclusive — the data-model invariant's right-hand side, stated as an
explicit finite sum over the arc length `((e + n - s) % n) + 1`. -/
def arcSum (arr : List ℚ) (s e : ℕ) : ℚ :=
  let n := arr.length
  ∑ k ∈ Finset.range ((e + n - s) % n + 1), arr.getD ((s + k) % n) 0

/-- The Boolean `close` parameter that never accepts; used on inputs
whose peak hues are pairwise more than 30 apart, where the source never
reaches the CIEDE2000 test. -/
def closeNever : HuePeak → HuePeak → Bool := fun _ _ => false

/-- A 128-bin histogram with zero-height local peaks at bins 0 and 64,
positive peaks (height 32) at bins 32 and 96, and strictly monotone
slopes in between (valleys of height −16 at bins 16, 48, 80, 112).
Adjacent-peak merging cannot score any pair (each pair contains a
zero-height peak), so the merge loop breaks above the cap. -/
def cxHist128 : List ℚ :=
  (List.range 128).map (fun t =>
    let v : ℕ := t % 64
    if v ≤ 16 then -(v : ℚ)
    else if v ≤ 32 then 3 * (v : ℚ) - 64
    else if v ≤ 48 then 128 - 3 * (v : ℚ)
    else (v : ℚ) - 64)

/-- Zero saturation/lightness sums of length 128. -/
def zeros128 : List ℚ := List.replicate 128 0

/-- A 64-bin non-negative histogram with peaks of height 40 at bins 0
and 32 and unique valleys of height 8 at bins 16 and 48.  The two
clusters' arcs `[48, 16]` and `[16, 48]` share the valley bins 16 and
48, so their weights sum to the histogram total plus 16. -/
def cxHist64 : List ℚ :=
  (List.range 64).map (fun t =>
    (40 : ℚ) - 2 * ((min (t % 32) (32 - t % 32) : ℕ) : ℚ))

/-- Zero saturation/lightness sums of length 64. -/
def zeros64 : List ℚ := List.replicate 64 0

section Lemmas

lemma circularIndex_natCast (m n : ℕ) : circularIndex (m : ℤ) n = m % n := by
  unfold circularIndex
  have h : ((m : ℤ) % n + n) % n = ((m % n : ℕ) : ℤ) := by
    push_cast
    rw [show (m : ℤ) % n + n = (m : ℤ) % n + n * 1 by ring,
      Int.add_mul_emod_self_left, Int.emod_emod_of_dvd _ dvd_rfl]
  rw [h]
  exact Int.toNat_natCast _

lemma circularIndex_add_one (j n : ℕ) : circularIndex ((j : ℤ) + 1) n = (j + 1) % n := by
  rw [show ((j : ℤ) + 1) = ((j + 1 : ℕ) : ℤ) by push_cast; ring, circularIndex_natCast]

lemma circularIndex_lt (i : ℤ) (n : ℕ) (hn : 0 < n) : circularIndex i n < n := by
  unfold circularIndex
  have hn' : (n : ℤ) ≠ 0 := by exact_mod_cast hn.ne'
  have h1 : 0 ≤ (i % n + n) % n := Int.emod_nonneg _ hn'
  have h2 : (i % n + n) % n < (n : ℤ) := Int.emod_lt_of_pos _ (by exact_mod_cast hn)
  omega

lemma list_sum_eq_range_getD {M : Type*} [AddCommMonoid M] (l : List M) :
    l.sum = ∑ i ∈ Finset.range l.length, l.getD i 0 := by
  induction l with
  | nil => simp
  | cons a t ih =>
    rw [List.sum_cons, List.length_cons, Finset.sum_range_succ']
    simp only [List.getD_cons_succ, List.getD_cons_zero]
    rw [ih]
    exact add_comm _ _

lemma list_range_map_sum {M : Type*} [AddCommMonoid M] (n : ℕ) (f : ℕ → M) :
    ((List.range n).map f).sum = ∑ i ∈ Finset.range n, f i := by
  induction n with
  | zero => simp
  | succ m ih =>
    rw [List.range_succ, List.map_append, List.sum_append, Finset.sum_range_succ, ih]
    simp

lemma list_sum_map_div (l : List ℝ) (z : ℝ) :
    (l.map (fun v => v / z)).sum = l.sum / z := by
  induction l with
  | nil => simp
  | cons a t ih => rw [List.map_cons, List.sum_cons, List.sum_cons, ih, add_div]

/-- Summing any function of the circularly shifted index over one full
period equals summing the function itself. -/
lemma sum_range_mod_shift (f : ℕ → ℝ) (n c : ℕ) (hn : 0 < n) :
    ∑ i ∈ Finset.range n, f ((i + c) % n) = ∑ i ∈ Finset.range n, f i := by
  have hcd := Nat.div_add_mod c n
  have hcm : c % n < n := Nat.mod_lt _ hn
  apply Finset.sum_nbij' (fun i => (i + c) % n) (fun j => (j + (n - c % n)) % n)
  · intro a _
    rw [Finset.mem_range]
    exact Nat.mod_lt _ hn
  · intro a _
    rw [Finset.mem_range]
    exact Nat.mod_lt _ hn
  · intro a ha
    rw [Finset.mem_range] at ha
    rw [Nat.mod_add_mod, show a + c + (n - c % n) = a + n * (c / n) + n by omega,
      Nat.add_mod_right, Nat.add_mul_mod_self_left, Nat.mod_eq_of_lt ha]
  · intro a ha
    rw [Finset.mem_range] at ha
    rw [Nat.mod_add_mod, show a + (n - c % n) + c = a + n * (c / n) + n by omega,
      Nat.add_mod_right, Nat.add_mul_mod_self_left, Nat.mod_eq_of_lt ha]
  · intro a _
    rfl

lemma generateGaussianKernel_length (sigma : ℝ) (size : ℕ) :
    (generateGaussianKernel sigma size).length = 2 * (size / 2) + 1 := by
  simp only [generateGaussianKernel]
  rw [List.length_map, List.length_map, List.length_range]

/-- The kernel is normalized: its entries sum to 1 (the unnormalized
entries are positive exponentials, so their sum is nonzero). -/
lemma generateGaussianKernel_sum (sigma : ℝ) (size : ℕ) :
    (generateGaussianKernel sigma size).sum = 1 := by
  simp only [generateGaussianKernel]
  rw [list_sum_map_div]
  apply div_self
  rw [list_range_map_sum]
  refine (Finset.sum_pos (fun i _ => Real.exp_pos _)
    (Finset.nonempty_range_iff.mpr (by omega))).ne'

/-- Core of the mass-preservation argument: a circular convolution with
a kernel of unit sum whose full length is used preserves the total. -/
lemma smooth_sum_aux (histogram kernel : List ℝ) (ks : ℕ)
    (hk : kernel.length = ks) (hsum : kernel.sum = 1)
    (hks_le : ks ≤ histogram.length) (hks_pos : 0 < ks) :
    (∑ j ∈ Finset.range ks, ∑ i ∈ Finset.range histogram.length,
      histogram.getD ((i + j + histogram.length - ks / 2) % histogram.length) 0 *
        kernel.getD j 0) = histogram.sum := by
  have hn0 : 0 < histogram.length := by omega
  have hterm : ∀ j ∈ Finset.range ks, (∑ i ∈ Finset.range histogram.length,
      histogram.getD ((i + j + histogram.length - ks / 2) % histogram.length) 0 *
        kernel.getD j 0) = histogram.sum * kernel.getD j 0 := by
    intro j _
    rw [← Finset.sum_mul]
    congr 1
    calc ∑ i ∈ Finset.range histogram.length,
          histogram.getD ((i + j + histogram.length - ks / 2) % histogram.length) 0
        = ∑ i ∈ Finset.range histogram.length,
          histogram.getD ((i + (j + histogram.length - ks / 2)) % histogram.length) 0 :=
          Finset.sum_congr rfl (fun i _ => by
            rw [show i + j + histogram.length - ks / 2
              = i + (j + histogram.length - ks / 2) by omega])
      _ = ∑ i ∈ Finset.range histogram.length, histogram.getD i 0 :=
          sum_range_mod_shift (fun m => histogram.getD m 0) histogram.length _ hn0
      _ = histogram.sum := (list_sum_eq_range_getD histogram).symm
  calc (∑ j ∈ Finset.range ks, ∑ i ∈ Finset.range histogram.length,
        histogram.getD ((i + j + histogram.length - ks / 2) % histogram.length) 0 *
          kernel.getD j 0)
      = ∑ j ∈ Finset.range ks, histogram.sum * kernel.getD j 0 :=
        Finset.sum_congr rfl hterm
    _ = histogram.sum * ∑ j ∈ Finset.range ks, kernel.getD j 0 :=
        (Finset.mul_sum _ _ _).symm
    _ = histogram.sum * kernel.sum := by rw [list_sum_eq_range_getD kernel, hk]
    _ = histogram.sum := by rw [hsum, mul_one]

lemma getD_nonneg {l : List ℚ} (hl : ∀ x ∈ l, 0 ≤ x) (i : ℕ) : 0 ≤ l.getD i 0 := by
  by_cases h : i < l.length
  · rw [List.getD_eq_getElem l 0 h]
    exact hl _ (List.getElem_mem h)
  · rw [List.getD_eq_default l 0 (by omega)]

/-- The aggregation walk equals the explicit arc sum: starting at `j`
with `d` more steps to reach `e` (circularly), the walk adds up exactly
the `d + 1` bins of the arc. -/
lemma arcLoop_eq_sum (arr : List ℚ) (n e : ℕ) (he : e < n) :
    ∀ d j fuel, j < n → d < n → (j + d) % n = e → d < fuel →
      arcLoop arr n e j fuel = ∑ k ∈ Finset.range (d + 1), arr.getD ((j + k) % n) 0 := by
  intro d
  induction d with
  | zero =>
    intro j fuel hj _ hje hfuel
    have hj' : j = e := by rwa [Nat.add_zero, Nat.mod_eq_of_lt hj] at hje
    obtain ⟨f, rfl⟩ : ∃ f, fuel = f + 1 := ⟨fuel - 1, by omega⟩
    simp [arcLoop, hj', Nat.mod_eq_of_lt he]
  | succ d ih =>
    intro j fuel hj hd hje hfuel
    obtain ⟨f, rfl⟩ : ∃ f, fuel = f + 1 := ⟨fuel - 1, by omega⟩
    have hn : 0 < n := by omega
    have hjne : j ≠ e := by
      intro hcontra
      subst hcontra
      have h1 : j + (d + 1) ≡ j + 0 [MOD n] := by
        simpa [Nat.ModEq, Nat.mod_eq_of_lt hj] using hje
      have h2 : d + 1 ≡ 0 [MOD n] := Nat.ModEq.add_left_cancel' j h1
      have h3 : n ∣ d + 1 := Nat.modEq_zero_iff_dvd.mp h2
      have h4 : n ≤ d + 1 := Nat.le_of_dvd (by omega) h3
      omega
    have hje' : ((j + 1) % n + d) % n = e := by
      rw [Nat.mod_add_mod, show j + 1 + d = j + (d + 1) by ring]
      exact hje
    rw [arcLoop, if_neg hjne, circularIndex_add_one,
      ih ((j + 1) % n) f (Nat.mod_lt _ hn) (by omega) hje' (by omega)]
    conv_rhs => rw [Finset.sum_range_succ']
    have h0 : arr.getD ((j + 0) % n) 0 = arr.getD j 0 := by
      rw [Nat.add_zero, Nat.mod_eq_of_lt hj]
    rw [h0]
    conv_lhs => rw [add_comm]
    congr 1
    refine Finset.sum_congr rfl ?_
    intro k _
    rw [Nat.mod_add_mod, show j + 1 + k = j + (k + 1) by ring]

/-- Companion of `arcLoop_eq_sum` at the call sites of
`convertToHuePeaks`: with both endpoints in range and `fuel = n`, the
walk computes `arcSum`. -/
lemma arcLoop_eq_arcSum (arr : List ℚ) (s e : ℕ) (hs : s < arr.length)
    (he : e < arr.length) :
    arcLoop arr arr.length e s arr.length = arcSum arr s e := by
  set n := arr.length with hn
  have hn0 : 0 < n := by omega
  have hd : (e + n - s) % n < n := Nat.mod_lt _ hn0
  have hrel : (s + (e + n - s) % n) % n = e := by
    have h1 : s + (e + n - s) % n ≡ s + (e + n - s) [MOD n] :=
      Nat.ModEq.add_left s (Nat.mod_modEq _ _)
    have h2 : s + (e + n - s) = e + n := by omega
    calc (s + (e + n - s) % n) % n = (s + (e + n - s)) % n := h1
      _ = (e + n) % n := by rw [h2]
      _ = e := by rw [Nat.add_mod_right, Nat.mod_eq_of_lt he]
  exact arcLoop_eq_sum arr n e he _ s n hs hd hrel hd

/-- Every cluster produced by `convertToHuePeaks` has in-range arc
endpoints and a `totalWeight` equal to the arc sum of the histogram. -/
lemma convert_mem_spec {histogram saturationSum lightnessSum : List ℚ}
    {peaks : List LocalPeak} {c : HuePeak} (hn : 0 < histogram.length)
    (hc : c ∈ convertToHuePeaks peaks histogram saturationSum lightnessSum) :
    c.startHue < histogram.length ∧ c.endHue < histogram.length ∧
      c.totalWeight = arcSum histogram c.startHue c.endHue := by
  unfold convertToHuePeaks at hc
  rw [List.mem_map] at hc
  obtain ⟨p, -, rfl⟩ := hc
  refine ⟨circularIndex_lt _ _ hn, circularIndex_lt _ _ hn, ?_⟩
  exact arcLoop_eq_arcSum histogram _ _ (circularIndex_lt _ _ hn)
    (circularIndex_lt _ _ hn)

/-- An arc sum of a non-negative histogram is at most the full sum: the
arc visits pairwise distinct bins. -/
lemma arcSum_le_sum (arr : List ℚ) (s e : ℕ) (hpos : ∀ x ∈ arr, 0 ≤ x)
    (hs : s < arr.length) : arcSum arr s e ≤ arr.sum := by
  unfold arcSum
  rw [list_sum_eq_range_getD]
  set n := arr.length with hn
  have hn0 : 0 < n := by omega
  have hd : (e + n - s) % n < n := Nat.mod_lt _ hn0
  have hinj : ∀ k1 ∈ Finset.range ((e + n - s) % n + 1),
      ∀ k2 ∈ Finset.range ((e + n - s) % n + 1),
      (s + k1) % n = (s + k2) % n → k1 = k2 := by
    intro k1 hk1 k2 hk2 heq
    rw [Finset.mem_range] at hk1 hk2
    have h1 : k1 ≡ k2 [MOD n] := Nat.ModEq.add_left_cancel' s heq
    have h2 : k1 % n = k2 % n := h1
    rwa [Nat.mod_eq_of_lt (by omega), Nat.mod_eq_of_lt (by omega)] at h2
  have heq : ∑ m ∈ (Finset.range ((e + n - s) % n + 1)).image (fun k => (s + k) % n),
      arr.getD m 0 = ∑ k ∈ Finset.range ((e + n - s) % n + 1), arr.getD ((s + k) % n) 0 :=
    Finset.sum_image hinj
  rw [← heq]
  apply Finset.sum_le_sum_of_subset_of_nonneg
  · intro m hm
    rw [Finset.mem_image] at hm
    obtain ⟨k, -, rfl⟩ := hm
    rw [Finset.mem_range]
    exact Nat.mod_lt _ hn0
  · intro i _ _
    exact getD_nonneg hpos i

end Lemmas

section ClaimC2

/-- Claim C2 (amended): every cluster produced by the range-aggregation
stage `convertToHuePeaks` satisfies the data-model invariant — its
`totalWeight` equals the sum of `weight[i]` for `i` traversing the
circular arc from `startHue` to `endHue` inclusive.  The original
claim's extension to the flat-histogram degenerate cluster (and to arcs
unioned by perceptual fusion) is false: see the counterexample, where
the degenerate cluster stores the whole-histogram weight while its arc
`[0, 0]` carries less. -/
theorem convertToHuePeaks_totalWeight_eq_arcSum
    (histogram saturationSum lightnessSum : List ℚ) (peaks : List LocalPeak)
    (c : HuePeak) (hn : 0 < histogram.length)
    (hc : c ∈ convertToHuePeaks peaks histogram saturationSum lightnessSum) :
    c.totalWeight = arcSum histogram c.startHue c.endHue :=
  (convert_mem_spec hn hc).2.2

/-- Witness for C2: a concrete peak over `[1, 2, 1]` spanning the whole
ring has cluster weight 4, the arc sum from 0 to 2. -/
theorem convertToHuePeaks_totalWeight_eq_arcSum_witness :
    (⟨0, 2, 1, 2, 4, 0, 0⟩ : HuePeak).totalWeight = arcSum [1, 2, 1] 0 2 :=
  convertToHuePeaks_totalWeight_eq_arcSum [1, 2, 1] [0, 0, 0] [0, 0, 0]
    [⟨1, 2, 0, 2⟩] ⟨0, 2, 1, 2, 4, 0, 0⟩ (by decide)
    (by with_unfolding_all decide)

/-- Counterexample for C2 as stated: on the flat histogram `[1, 1]` the
degenerate branch of `extractPeaks` returns one cluster with
`startHue = endHue = 0` and `totalWeight = 2`, but the circular arc from
0 to 0 inclusive carries weight 1 only. -/
theorem flatBranch_invariant_cx :
    extractPeaks closeNever ⟨[1, 1], [0, 0], [0, 0]⟩ 5 =
      [⟨0, 0, 0, 1, 2, 0, 0⟩] ∧ arcSum [1, 1] 0 0 = 1 ∧ (2 : ℚ) ≠ 1 :=
  ⟨by with_unfolding_all decide, by with_unfolding_all decide, by norm_num⟩

end ClaimC2

section ClaimC4

/-- Claim C4 (amended): bin `i` is recognized as a local peak exactly
when `histogram[i]` is at least both circular neighbors and strictly
greater than at least one of them.  The original claim's tie-handling
part is false: a flat run of equal values flanked by lower bins
contributes TWO peaks (its first and its last bin), not one — see the
counterexample. -/
theorem findLocalPeaks_mem_iff (histogram : List ℚ) (i : ℕ)
    (hi : i < histogram.length) :
    (∃ p ∈ findLocalPeaks histogram, p.index = i) ↔
      (histogram.getD (circularIndex ((i : ℤ) - 1) histogram.length) 0 ≤
          histogram.getD i 0 ∧
       histogram.getD (circularIndex ((i : ℤ) + 1) histogram.length) 0 ≤
          histogram.getD i 0 ∧
       (histogram.getD (circularIndex ((i : ℤ) - 1) histogram.length) 0 <
          histogram.getD i 0 ∨
        histogram.getD (circularIndex ((i : ℤ) + 1) histogram.length) 0 <
          histogram.getD i 0)) := by
  constructor
  · rintro ⟨p, hp, hpi⟩
    simp only [findLocalPeaks, List.mem_filterMap, List.mem_range] at hp
    obtain ⟨a, ha, hfa⟩ := hp
    split at hfa
    case isTrue hcond =>
      cases hfa
      subst hpi
      rcases hcond with ⟨h1, h2⟩ | ⟨h1, h2⟩
      · exact ⟨le_of_lt h1, h2, Or.inl h1⟩
      · exact ⟨h1, le_of_lt h2, Or.inr h2⟩
    case isFalse => cases hfa
  · rintro ⟨h1, h2, h3⟩
    refine ⟨⟨i, histogram.getD i 0, -1, -1⟩, ?_, rfl⟩
    simp only [findLocalPeaks, List.mem_filterMap, List.mem_range]
    refine ⟨i, hi, ?_⟩
    rw [if_pos]
    rcases h3 with h3 | h3
    · exact Or.inl ⟨h3, h2⟩
    · exact Or.inr ⟨h1, h3⟩

/-- Witness for C4: over `[0, 1, 0]`, bin 1 dominates both neighbors
strictly and is indeed returned as a peak. -/
theorem findLocalPeaks_mem_iff_witness :
    ∃ p ∈ findLocalPeaks ([0, 1, 0] : List ℚ), p.index = 1 :=
  (findLocalPeaks_mem_iff [0, 1, 0] 1 (by decide)).mpr
    (by with_unfolding_all decide)

/-- Counterexample for C4 as stated: in `[0, 5, 5, 0]` the bins 1 and 2
form one flat run of equal values flanked by strictly lower bins, yet
BOTH are returned as peaks — a flat run is double-counted, refuting
"a flat run of equal values contributes exactly one peak". -/
theorem plateau_two_peaks_cx :
    (findLocalPeaks ([0, 5, 5, 0] : List ℚ)).map LocalPeak.index = [1, 2] ∧
      ([0, 5, 5, 0] : List ℚ).getD 1 0 = ([0, 5, 5, 0] : List ℚ).getD 2 0 ∧
      (1 : ℕ) ≠ 2 :=
  ⟨by with_unfolding_all decide, by with_unfolding_all decide, by decide⟩

end ClaimC4

section ClaimC6

/-- Claim C6 (amended): for a histogram with non-negative entries, each
individual cluster produced by range aggregation carries at most the
total histogram weight.  The original claim — that the cluster weights
SUM to at most the total, with equality when the low-weight filter drops
nothing — is false: cyclically adjacent clusters share their valley
bins, which are counted in both (and perceptual fusion adds the weights
of overlapping arcs); see the counterexample. -/
theorem convert_cluster_weight_le_total
    (histogram saturationSum lightnessSum : List ℚ) (peaks : List LocalPeak)
    (c : HuePeak) (hpos : ∀ x ∈ histogram, 0 ≤ x) (hn : 0 < histogram.length)
    (hc : c ∈ convertToHuePeaks peaks histogram saturationSum lightnessSum) :
    c.totalWeight ≤ histogram.sum := by
  obtain ⟨hs, -, hw⟩ := convert_mem_spec hn hc
  rw [hw]
  exact arcSum_le_sum histogram _ _ hpos hs

/-- Witness for C6: the concrete whole-ring cluster over `[1, 2, 1]` has
weight 4, which is at most the histogram total 4. -/
theorem convert_cluster_weight_le_total_witness :
    (⟨0, 2, 1, 2, 4, 0, 0⟩ : HuePeak).totalWeight ≤ ([1, 2, 1] : List ℚ).sum :=
  convert_cluster_weight_le_total [1, 2, 1] [0, 0, 0] [0, 0, 0]
    [⟨1, 2, 0, 2⟩] ⟨0, 2, 1, 2, 4, 0, 0⟩ (by decide) (by decide)
    (by with_unfolding_all decide)

/-- Counterexample for C6 as stated: on the non-negative 64-bin
histogram `cxHist64` (total weight 1536) the extractor returns two
clusters whose weights sum to 1552 — the shared valley bins 16 and 48
(weight 8 each) are counted in both arcs — although the low-weight
filter dropped nothing (both clusters survive). -/
theorem cluster_weights_sum_exceeds_total_cx :
    sumTotalWeights (extractPeaks closeNever ⟨cxHist64, zeros64, zeros64⟩ 5) = 1552 ∧
      cxHist64.sum = 1536 ∧
      (extractPeaks closeNever ⟨cxHist64, zeros64, zeros64⟩ 5).length = 2 ∧
      ¬((1552 : ℚ) ≤ 1536) :=
  ⟨by with_unfolding_all decide, by with_unfolding_all decide,
   by with_unfolding_all decide, by norm_num⟩

end ClaimC6

section LemmasC1

lemma insertByDesc_length (key : HuePeak → ℚ) (x : HuePeak) :
    ∀ l, (insertByDesc key x l).length = l.length + 1 := by
  intro l
  induction l with
  | nil => rfl
  | cons y ys ih =>
    rw [insertByDesc]
    split
    · rfl
    · simp [ih]

lemma sortByDesc_length (key : HuePeak → ℚ) (l : List HuePeak) :
    (sortByDesc key l).length = l.length := by
  induction l with
  | nil => rfl
  | cons x xs ih =>
    show (insertByDesc key x (sortByDesc key xs)).length = xs.length + 1
    rw [insertByDesc_length, ih]

lemma filterByWeight_length_le (l : List HuePeak) (r : ℚ) :
    (filterByWeight l r).length ≤ l.length := by
  simpa [filterByWeight] using List.length_filter_le _ l

lemma convertToHuePeaks_length (localPeaks : List LocalPeak)
    (h s l : List ℚ) :
    (convertToHuePeaks localPeaks h s l).length = localPeaks.length := by
  simp [convertToHuePeaks]

lemma mergeSimilarColors_length_le (close : HuePeak → HuePeak → Bool)
    (peaks : List HuePeak) :
    (mergeSimilarColors close peaks).length ≤ peaks.length := by
  have key : ∀ (l : List HuePeak) (acc : List HuePeak),
      (l.foldl (fun merged peak =>
        match findFuseTarget close merged peak with
        | some k => merged.set k (fusePeaks (merged.getD k peak) peak)
        | none => merged ++ [peak]) acc).length ≤ acc.length + l.length := by
    intro l
    induction l with
    | nil => intro acc; simp
    | cons x xs ih =>
      intro acc
      have hstep : (match findFuseTarget close acc x with
          | some k => acc.set k (fusePeaks (acc.getD k x) x)
          | none => acc ++ [x]).length ≤ acc.length + 1 := by
        cases hk : findFuseTarget close acc x with
        | some k => simp [List.length_set]
        | none => simp
      calc (List.foldl _ acc (x :: xs)).length
          ≤ (match findFuseTarget close acc x with
              | some k => acc.set k (fusePeaks (acc.getD k x) x)
              | none => acc ++ [x]).length + xs.length := ih _
        _ ≤ acc.length + 1 + xs.length := by omega
        _ = acc.length + (x :: xs).length := by simp [List.length_cons]; omega
  simpa [mergeSimilarColors] using key peaks []

lemma getD_mem_of_lt {peaks : List LocalPeak} {i : ℕ} (hi : i < peaks.length) :
    peaks.getD i dummyPeak ∈ peaks := by
  rw [List.getD_eq_getElem _ _ hi]
  exact List.getElem_mem hi

lemma findLocalPeaks_pos {h : List ℚ} (hpos : ∀ x ∈ h, 0 ≤ x) :
    ∀ p ∈ findLocalPeaks h, 0 < p.value := by
  intro p hp
  simp only [findLocalPeaks, List.mem_filterMap, List.mem_range] at hp
  obtain ⟨a, ha, hfa⟩ := hp
  split at hfa
  case isTrue hcond =>
    cases hfa
    rcases hcond with ⟨h1, _⟩ | ⟨_, h2⟩
    · exact lt_of_le_of_lt (getD_nonneg hpos _) h1
    · exact lt_of_le_of_lt (getD_nonneg hpos _) h2
  case isFalse => cases hfa

lemma findValleys_pos {peaks : List LocalPeak} {h : List ℚ}
    (hpk : ∀ p ∈ peaks, 0 < p.value) :
    ∀ p ∈ findValleys peaks h, 0 < p.value := by
  intro p hp
  simp only [findValleys] at hp
  split at hp
  · rw [List.mem_map] at hp
    obtain ⟨q, hq, rfl⟩ := hp
    exact hpk q hq
  · rw [List.mem_map] at hp
    obtain ⟨i, hi, rfl⟩ := hp
    rw [List.mem_range] at hi
    have hv := hpk _ (getD_mem_of_lt hi)
    simpa using hv

lemma findValleys_length (peaks : List LocalPeak) (h : List ℚ) :
    (findValleys peaks h).length = peaks.length := by
  simp only [findValleys]
  split <;> simp

lemma bestPairStep_cases (h : List ℚ) (peaks : List LocalPeak)
    (st : ℚ × Option ℕ) (i : ℕ) :
    bestPairStep h peaks st i = st ∨
      ∃ s, bestPairStep h peaks st i = (s, some i) := by
  simp only [bestPairStep]
  split
  · split
    · right; exact ⟨_, rfl⟩
    · left; rfl
  · left; rfl

lemma bestPairStep_isSome (h : List ℚ) (peaks : List LocalPeak)
    (st : ℚ × Option ℕ) (i : ℕ) (hst : st.2.isSome) :
    (bestPairStep h peaks st i).2.isSome := by
  rcases bestPairStep_cases h peaks st i with heq | ⟨s, heq⟩ <;> rw [heq]
  · exact hst
  · rfl

lemma foldl_bestPairStep_isSome (h : List ℚ) (peaks : List LocalPeak) :
    ∀ (l : List ℕ) (st : ℚ × Option ℕ), st.2.isSome →
      ((l.foldl (bestPairStep h peaks) st).2).isSome := by
  intro l
  induction l with
  | nil => intro st hst; exact hst
  | cons a t ih => intro st hst; exact ih _ (bestPairStep_isSome h peaks st a hst)

lemma foldl_bestPairStep_lt (h : List ℚ) (peaks : List LocalPeak) (len : ℕ) :
    ∀ (l : List ℕ) (st : ℚ × Option ℕ), (∀ a ∈ l, a < len) →
      (st.2 = none ∨ ∃ i, st.2 = some i ∧ i < len) →
      ((l.foldl (bestPairStep h peaks) st).2 = none ∨
        ∃ i, (l.foldl (bestPairStep h peaks) st).2 = some i ∧ i < len) := by
  intro l
  induction l with
  | nil => intro st _ hst; exact hst
  | cons a t ih =>
    intro st hl hst
    refine ih _ (fun b hb => hl b (List.mem_cons_of_mem a hb)) ?_
    rcases bestPairStep_cases h peaks st a with heq | ⟨s, heq⟩ <;> rw [heq]
    · exact hst
    · exact Or.inr ⟨a, rfl, hl a (List.mem_cons_self a t)⟩

/-- When every peak value is positive, the loop body at a valid index
always produces a `some` state: the pair is scoreable and the score is
non-negative, so it beats an initial best of −1. -/
lemma bestPairStep_fires (h : List ℚ) (peaks : List LocalPeak)
    (hh : ∀ x ∈ h, 0 ≤ x) (hn : 0 < h.length)
    (hpk : ∀ p ∈ peaks, 0 < p.value) (st : ℚ × Option ℕ) (i : ℕ)
    (hi : i < peaks.length) (hst : st.1 = -1) :
    (bestPairStep h peaks st i).2.isSome := by
  simp only [bestPairStep]
  have hcurr : 0 < (peaks.getD i dummyPeak).value := hpk _ (getD_mem_of_lt hi)
  have hnext : 0 < (peaks.getD ((i + 1) % peaks.length) dummyPeak).value :=
    hpk _ (getD_mem_of_lt (Nat.mod_lt _ (by omega)))
  have hmin : 0 < min (peaks.getD i dummyPeak).value
      (peaks.getD ((i + 1) % peaks.length) dummyPeak).value := lt_min hcurr hnext
  rw [if_pos hmin]
  split
  case isTrue => rfl
  case isFalse hlt =>
    exfalso
    apply hlt
    rw [hst]
    have hvalley : (0 : ℚ) ≤ h.getD (peaks.getD i dummyPeak).rightValley.toNat 0 :=
      getD_nonneg hh _
    have hratio : (0 : ℚ) ≤ h.getD (peaks.getD i dummyPeak).rightValley.toNat 0 /
        min (peaks.getD i dummyPeak).value
          (peaks.getD ((i + 1) % peaks.length) dummyPeak).value :=
      div_nonneg hvalley hmin.le
    have hdist : (hueDistance h.length (peaks.getD i dummyPeak).index
        (peaks.getD ((i + 1) % peaks.length) dummyPeak).index : ℚ) ≤ (h.length : ℚ) / 2 := by
      have h2 : 2 * hueDistance h.length (peaks.getD i dummyPeak).index
          (peaks.getD ((i + 1) % peaks.length) dummyPeak).index ≤ h.length := by
        simp only [hueDistance]
        omega
      rw [le_div_iff₀ (by norm_num : (0:ℚ) < 2)]
      calc (hueDistance h.length (peaks.getD i dummyPeak).index
            (peaks.getD ((i + 1) % peaks.length) dummyPeak).index : ℚ) * 2
          = ((2 * hueDistance h.length (peaks.getD i dummyPeak).index
              (peaks.getD ((i + 1) % peaks.length) dummyPeak).index : ℕ) : ℚ) := by
            push_cast; ring
        _ ≤ (h.length : ℚ) := by exact_mod_cast h2
    have hfactor : (0 : ℚ) ≤ 1 - (hueDistance h.length (peaks.getD i dummyPeak).index
        (peaks.getD ((i + 1) % peaks.length) dummyPeak).index : ℚ) / ((h.length : ℚ) / 2) := by
      have hpos2 : (0 : ℚ) < (h.length : ℚ) / 2 := by
        have hc : (0 : ℚ) < (h.length : ℚ) := by exact_mod_cast hn
        linarith
      have hle1 := (div_le_one hpos2).mpr hdist
      linarith
    have hprod : (0 : ℚ) ≤ h.getD (peaks.getD i dummyPeak).rightValley.toNat 0 /
        min (peaks.getD i dummyPeak).value
          (peaks.getD ((i + 1) % peaks.length) dummyPeak).value *
        (1/2 + 1/2 * (1 - (hueDistance h.length (peaks.getD i dummyPeak).index
          (peaks.getD ((i + 1) % peaks.length) dummyPeak).index : ℚ) /
            ((h.length : ℚ) / 2))) :=
      mul_nonneg hratio (by linarith)
    linarith

lemma findBestPair_spec (h : List ℚ) (peaks : List LocalPeak)
    (hh : ∀ x ∈ h, 0 ≤ x) (hn : 0 < h.length)
    (hpk : ∀ p ∈ peaks, 0 < p.value) (hne : 0 < peaks.length) :
    ∃ i, (findBestPair h peaks).2 = some i ∧ i < peaks.length := by
  unfold findBestPair
  have hsome : ((List.range peaks.length).foldl (bestPairStep h peaks) (-1, none)).2.isSome := by
    obtain ⟨m, hm⟩ : ∃ m, peaks.length = m + 1 := ⟨peaks.length - 1, by omega⟩
    rw [hm, List.range_succ_eq_map]
    rw [List.foldl_cons]
    apply foldl_bestPairStep_isSome
    exact bestPairStep_fires h peaks hh hn hpk _ 0 (by omega) rfl
  have hlt := foldl_bestPairStep_lt h peaks peaks.length (List.range peaks.length)
    (-1, none) (fun a ha => List.mem_range.mp ha) (Or.inl rfl)
  rcases hlt with hnone | ⟨i, hi, hilt⟩
  · rw [hnone] at hsome; cases hsome
  · exact ⟨i, hi, hilt⟩

lemma mergeOnce_length {peaks : List LocalPeak} {i : ℕ} (hi : i < peaks.length) :
    (mergeOnce peaks i).length = peaks.length - 1 := by
  have hlen : 0 < peaks.length := by omega
  simp only [mergeOnce]
  split
  · rw [List.length_eraseIdx_of_lt (by rw [List.length_set]; exact Nat.mod_lt _ hlen),
      List.length_set]
  · rw [List.length_eraseIdx_of_lt (by rw [List.length_set]; exact hi), List.length_set]

lemma mergeOnce_pos {peaks : List LocalPeak} {i : ℕ}
    (hpk : ∀ p ∈ peaks, 0 < p.value) (hi : i < peaks.length) :
    ∀ p ∈ mergeOnce peaks i, 0 < p.value := by
  have hlen : 0 < peaks.length := by omega
  intro p hp
  simp only [mergeOnce] at hp
  split at hp
  · have hp' := List.eraseIdx_subset _ _ hp
    rcases List.mem_or_eq_of_mem_set hp' with hmem | rfl
    · exact hpk p hmem
    · show 0 < (peaks.getD i dummyPeak).value
      exact hpk _ (getD_mem_of_lt hi)
  · have hp' := List.eraseIdx_subset _ _ hp
    rcases List.mem_or_eq_of_mem_set hp' with hmem | rfl
    · exact hpk p hmem
    · show 0 < (peaks.getD ((i + 1) % peaks.length) dummyPeak).value
      exact hpk _ (getD_mem_of_lt (Nat.mod_lt _ hlen))

lemma mergeAdjacentPeaksFuel_length_le (h : List ℚ) (maxPeaks : ℕ)
    (hh : ∀ x ∈ h, 0 ≤ x) (hn : 0 < h.length) :
    ∀ (fuel : ℕ) (peaks : List LocalPeak), (∀ p ∈ peaks, 0 < p.value) →
      peaks.length ≤ maxPeaks + fuel →
      (mergeAdjacentPeaksFuel h maxPeaks fuel peaks).length ≤ maxPeaks := by
  intro fuel
  induction fuel with
  | zero =>
    intro peaks _ hlen
    rw [mergeAdjacentPeaksFuel]
    omega
  | succ f ih =>
    intro peaks hpk hlen
    rw [mergeAdjacentPeaksFuel]
    split
    case isTrue hle => exact hle
    case isFalse hgt =>
      push_neg at hgt
      obtain ⟨i, hsome, hilt⟩ := findBestPair_spec h peaks hh hn hpk (by omega)
      rw [hsome]
      exact ih (mergeOnce peaks i) (mergeOnce_pos hpk hilt)
        (by rw [mergeOnce_length hilt]; omega)

end LemmasC1

section ClaimC1

/-- Claim C1 (amended): for histogram data whose `histogram` entries are
all non-negative (as the histogram builder produces) and `maxPeaks ≥ 1`,
`extractPeaks` returns at most `maxPeaks` clusters: every local peak of
a non-negative histogram has positive height, so the adjacent-merge loop
can always score some pair and reduces the count to the cap, and fusion
and filtering only shrink the list.  For general numeric arrays the
original claim is false — zero-height peaks make every adjacent pair
unscoreable and the merge loop breaks above the cap (see the
counterexample). -/
theorem extractPeaks_length_le_of_nonneg (close : HuePeak → HuePeak → Bool)
    (data : HistogramData) (maxPeaks : ℕ) (hmax : 1 ≤ maxPeaks)
    (hpos : ∀ x ∈ data.histogram, 0 ≤ x) :
    (extractPeaks close data maxPeaks).length ≤ maxPeaks := by
  simp only [extractPeaks]
  split
  case isTrue => simp
  case isFalse hn =>
    split
    case isTrue => simpa using hmax
    case isFalse hlp =>
      have hn0 : 0 < data.histogram.length := Nat.pos_of_ne_zero hn
      have h1 : ∀ p ∈ findLocalPeaks data.histogram, 0 < p.value :=
        findLocalPeaks_pos hpos
      have h2 : ∀ p ∈ findValleys (findLocalPeaks data.histogram) data.histogram,
          0 < p.value := findValleys_pos h1
      have h3 : (mergeAdjacentPeaks
          (findValleys (findLocalPeaks data.histogram) data.histogram)
          data.histogram maxPeaks).length ≤ maxPeaks := by
        unfold mergeAdjacentPeaks
        exact mergeAdjacentPeaksFuel_length_le data.histogram maxPeaks hpos hn0 _ _
          h2 (le_add_self)
      calc (sortByDesc HuePeak.totalWeight (filterByWeight (mergeSimilarColors close
          (sortByDesc HuePeak.peakValue (convertToHuePeaks
            (mergeAdjacentPeaks (findValleys (findLocalPeaks data.histogram)
              data.histogram) data.histogram maxPeaks)
            data.histogram data.saturationSum data.lightnessSum))) (1/100))).length
          = (filterByWeight (mergeSimilarColors close
            (sortByDesc HuePeak.peakValue (convertToHuePeaks
              (mergeAdjacentPeaks (findValleys (findLocalPeaks data.histogram)
                data.histogram) data.histogram maxPeaks)
              data.histogram data.saturationSum data.lightnessSum))) (1/100)).length :=
            sortByDesc_length _ _
        _ ≤ (mergeSimilarColors close
            (sortByDesc HuePeak.peakValue (convertToHuePeaks
              (mergeAdjacentPeaks (findValleys (findLocalPeaks data.histogram)
                data.histogram) data.histogram maxPeaks)
              data.histogram data.saturationSum data.lightnessSum))).length :=
            filterByWeight_length_le _ _
        _ ≤ (sortByDesc HuePeak.peakValue (convertToHuePeaks
              (mergeAdjacentPeaks (findValleys (findLocalPeaks data.histogram)
                data.histogram) data.histogram maxPeaks)
              data.histogram data.saturationSum data.lightnessSum)).length :=
            mergeSimilarColors_length_le _ _
        _ = (convertToHuePeaks
              (mergeAdjacentPeaks (findValleys (findLocalPeaks data.histogram)
                data.histogram) data.histogram maxPeaks)
              data.histogram data.saturationSum data.lightnessSum).length :=
            sortByDesc_length _ _
        _ = (mergeAdjacentPeaks (findValleys (findLocalPeaks data.histogram)
              data.histogram) data.histogram maxPeaks).length :=
            convertToHuePeaks_length _ _ _ _
        _ ≤ maxPeaks := h3

/-- Witness for C1: the single-peak non-negative histogram `[1, 2, 1]`
with `maxPeaks = 1` yields at most one cluster. -/
theorem extractPeaks_length_le_of_nonneg_witness :
    (extractPeaks closeNever ⟨[1, 2, 1], [0, 0, 0], [0, 0, 0]⟩ 1).length ≤ 1 :=
  extractPeaks_length_le_of_nonneg closeNever ⟨[1, 2, 1], [0, 0, 0], [0, 0, 0]⟩ 1
    (by decide) (by decide)

end ClaimC1

section ClaimC1cx

/-- Counterexample for C1 as stated: on the 128-bin histogram
`cxHist128` (which has negative entries, as a general `HistogramData`
permits) with `maxPeaks = 1`, the extractor returns 2 clusters: all four
cyclically adjacent peak pairs contain a zero-height peak and cannot be
scored, so adjacent merging breaks with 4 peaks above the cap, and the
weight filter keeps the two positive clusters. -/
theorem extractPeaks_exceeds_cap_cx :
    (extractPeaks closeNever ⟨cxHist128, zeros128, zeros128⟩ 1).length = 2 ∧
      ¬(2 ≤ 1) :=
  ⟨by with_unfolding_all decide, by decide⟩

end ClaimC1cx

section LemmasHistogram

lemma pixelWeight_pos {px : Pixel} (hk : pixelKeep px) : 0 < pixelWeight px := by
  simp only [pixelKeep] at hk
  obtain ⟨-, hs, hl5, hl95⟩ := hk
  simp only [pixelWeight]
  have hs' : (10 : ℚ) ≤ ((rgbToHsl (px.r : ℚ) (px.g : ℚ) (px.b : ℚ)).2.1 : ℚ) := by
    exact_mod_cast hs
  have hl5' : (5 : ℚ) ≤ ((rgbToHsl (px.r : ℚ) (px.g : ℚ) (px.b : ℚ)).2.2 : ℚ) := by
    exact_mod_cast hl5
  have hl95' : ((rgbToHsl (px.r : ℚ) (px.g : ℚ) (px.b : ℚ)).2.2 : ℚ) ≤ 95 := by
    exact_mod_cast hl95
  have habs : |((rgbToHsl (px.r : ℚ) (px.g : ℚ) (px.b : ℚ)).2.2 : ℚ) - 50| ≤ 45 :=
    abs_le.mpr ⟨by linarith, by linarith⟩
  apply mul_pos
  · linarith
  · have h50 : |((rgbToHsl (px.r : ℚ) (px.g : ℚ) (px.b : ℚ)).2.2 : ℚ) - 50| / 50 ≤ 45 / 50 := by
      linarith
    linarith

lemma getD_le_set_add (l : List ℚ) (i b : ℕ) (w : ℚ) (hw : 0 ≤ w) :
    l.getD b 0 ≤ (l.set i (l.getD i 0 + w)).getD b 0 := by
  rw [List.getD_eq_getElem?_getD, List.getD_eq_getElem?_getD, List.getElem?_set]
  by_cases hib : i = b
  · rw [if_pos hib]
    by_cases hlt : i < l.length
    · rw [if_pos hlt, Option.getD_some]
      subst hib
      rw [← List.getD_eq_getElem?_getD]
      linarith
    · subst hib
      rw [if_neg hlt, List.getElem?_eq_none (by omega)]
  · rw [if_neg hib]

lemma histStep_mono (bins : ℕ) (st : HistogramData) (px : Pixel) (b : ℕ) :
    st.histogram.getD b 0 ≤ (histStep bins st px).histogram.getD b 0 ∧
    st.saturationSum.getD b 0 ≤ (histStep bins st px).saturationSum.getD b 0 ∧
    st.lightnessSum.getD b 0 ≤ (histStep bins st px).lightnessSum.getD b 0 := by
  simp only [histStep]
  split
  · exact ⟨le_rfl, le_rfl, le_rfl⟩
  case isFalse ha =>
    split
    · exact ⟨le_rfl, le_rfl, le_rfl⟩
    case isFalse hskip =>
      push_neg at ha hskip
      obtain ⟨hs, hl5, hl95⟩ := hskip
      have hk : pixelKeep px := ⟨by omega, hs, hl5, hl95⟩
      have hw := (pixelWeight_pos hk).le
      have hs0 : (0 : ℚ) ≤ ((rgbToHsl (px.r : ℚ) (px.g : ℚ) (px.b : ℚ)).2.1 : ℚ) := by
        have : (0 : ℤ) ≤ (rgbToHsl (px.r : ℚ) (px.g : ℚ) (px.b : ℚ)).2.1 := by omega
        exact_mod_cast this
      have hl0 : (0 : ℚ) ≤ ((rgbToHsl (px.r : ℚ) (px.g : ℚ) (px.b : ℚ)).2.2 : ℚ) := by
        have : (0 : ℤ) ≤ (rgbToHsl (px.r : ℚ) (px.g : ℚ) (px.b : ℚ)).2.2 := by omega
        exact_mod_cast this
      exact ⟨getD_le_set_add _ _ _ _ hw,
        getD_le_set_add _ _ _ _ (mul_nonneg hs0 hw),
        getD_le_set_add _ _ _ _ (mul_nonneg hl0 hw)⟩

lemma foldl_histStep_nonneg (bins : ℕ) :
    ∀ (pixels : List Pixel) (st : HistogramData),
      (∀ b, 0 ≤ st.histogram.getD b 0 ∧ 0 ≤ st.saturationSum.getD b 0 ∧
        0 ≤ st.lightnessSum.getD b 0) →
      ∀ b, 0 ≤ (pixels.foldl (histStep bins) st).histogram.getD b 0 ∧
        0 ≤ (pixels.foldl (histStep bins) st).saturationSum.getD b 0 ∧
        0 ≤ (pixels.foldl (histStep bins) st).lightnessSum.getD b 0 := by
  intro pixels
  induction pixels with
  | nil => intro st hst b; exact hst b
  | cons px rest ih =>
    intro st hst b
    refine ih (histStep bins st px) (fun c => ?_) b
    obtain ⟨h1, h2, h3⟩ := histStep_mono bins st px c
    obtain ⟨g1, g2, g3⟩ := hst c
    exact ⟨le_trans g1 h1, le_trans g2 h2, le_trans g3 h3⟩

lemma replicate_getD_zero (bins b : ℕ) : (List.replicate bins (0 : ℚ)).getD b 0 = 0 := by
  rw [List.getD_eq_getElem?_getD, List.getElem?_replicate]
  split <;> rfl

end LemmasHistogram

section ClaimC10

/-- Claim C10 (confirmed): all entries of the three arrays produced by
the histogram builder are non-negative; every pixel passing the
alpha/saturation/lightness filters contributes a strictly positive
weight; and each step of the pixel scan only increases (never decreases)
every accumulated entry. -/
theorem extractHueHistogram_nonneg_monotone :
    (∀ (pixels : List Pixel) (bins b : ℕ),
        0 ≤ (extractHueHistogram pixels bins).histogram.getD b 0 ∧
        0 ≤ (extractHueHistogram pixels bins).saturationSum.getD b 0 ∧
        0 ≤ (extractHueHistogram pixels bins).lightnessSum.getD b 0) ∧
    (∀ px : Pixel, pixelKeep px → 0 < pixelWeight px) ∧
    (∀ (bins : ℕ) (st : HistogramData) (px : Pixel) (b : ℕ),
        st.histogram.getD b 0 ≤ (histStep bins st px).histogram.getD b 0 ∧
        st.saturationSum.getD b 0 ≤ (histStep bins st px).saturationSum.getD b 0 ∧
        st.lightnessSum.getD b 0 ≤ (histStep bins st px).lightnessSum.getD b 0) := by
  refine ⟨?_, fun px hk => pixelWeight_pos hk, fun bins st px b => histStep_mono bins st px b⟩
  intro pixels bins b
  apply foldl_histStep_nonneg bins pixels
  intro c
  simp only [replicate_getD_zero]
  exact ⟨le_rfl, le_rfl, le_rfl⟩

/-- Witness for C10: an opaque pure-red pixel passes the filters and
carries weight 1. -/
theorem extractHueHistogram_nonneg_monotone_witness :
    pixelKeep ⟨255, 0, 0, 255⟩ ∧ 0 < pixelWeight ⟨255, 0, 0, 255⟩ :=
  ⟨by with_unfolding_all decide,
   extractHueHistogram_nonneg_monotone.2.1 ⟨255, 0, 0, 255⟩
     (by with_unfolding_all decide)⟩

end ClaimC10

section LemmasC5

lemma getD_set_self_of_lt {l : List ℚ} {i : ℕ} (hi : i < l.length) (v : ℚ) :
    (l.set i v).getD i 0 = v := by
  rw [List.getD_eq_getElem?_getD, List.getElem?_set, if_pos rfl, if_pos hi,
    Option.getD_some]

lemma getD_set_ne_eq {l : List ℚ} {i b : ℕ} (hne : i ≠ b) (v : ℚ) :
    (l.set i v).getD b 0 = l.getD b 0 := by
  rw [List.getD_eq_getElem?_getD, List.getElem?_set, if_neg hne,
    ← List.getD_eq_getElem?_getD]

lemma pixelBin_lt {bins : ℕ} (hb : 0 < bins) (px : Pixel) : pixelBin bins px < bins := by
  simp only [pixelBin]
  have hne : (bins : ℤ) ≠ 0 := by exact_mod_cast hb.ne'
  have h1 : 0 ≤ ⌊((rgbToHsl (px.r : ℚ) (px.g : ℚ) (px.b : ℚ)).1 : ℚ) /
      (360 / (bins : ℚ))⌋ % (bins : ℤ) := Int.emod_nonneg _ hne
  have h2 : ⌊((rgbToHsl (px.r : ℚ) (px.g : ℚ) (px.b : ℚ)).1 : ℚ) /
      (360 / (bins : ℚ))⌋ % (bins : ℤ) < (bins : ℤ) :=
    Int.emod_lt_of_pos _ (by exact_mod_cast hb)
  omega

lemma histStep_length (bins : ℕ) (st : HistogramData) (px : Pixel) :
    (histStep bins st px).histogram.length = st.histogram.length ∧
    (histStep bins st px).saturationSum.length = st.saturationSum.length ∧
    (histStep bins st px).lightnessSum.length = st.lightnessSum.length := by
  simp only [histStep]
  split
  · exact ⟨rfl, rfl, rfl⟩
  · split
    · exact ⟨rfl, rfl, rfl⟩
    · exact ⟨List.length_set .., List.length_set .., List.length_set ..⟩

/-- Per-pixel characterization of one step of the histogram builder:
each accumulated entry grows by exactly the claim's contribution — the
weight (saturation-, lightness-scaled for the sum arrays) when the pixel
is kept and falls in the entry's bin, and zero otherwise. -/
lemma histStep_getD (bins b : ℕ) (hb : b < bins) (st : HistogramData)
    (hlen : st.histogram.length = bins) (hlen2 : st.saturationSum.length = bins)
    (hlen3 : st.lightnessSum.length = bins) (px : Pixel) :
    (histStep bins st px).histogram.getD b 0 = st.histogram.getD b 0 +
      (if pixelKeep px ∧ pixelBin bins px = b then pixelWeight px else 0) ∧
    (histStep bins st px).saturationSum.getD b 0 = st.saturationSum.getD b 0 +
      (if pixelKeep px ∧ pixelBin bins px = b then pixelSat px * pixelWeight px else 0) ∧
    (histStep bins st px).lightnessSum.getD b 0 = st.lightnessSum.getD b 0 +
      (if pixelKeep px ∧ pixelBin bins px = b then pixelLight px * pixelWeight px else 0) := by
  simp only [histStep]
  split
  case isTrue halpha =>
    have hnk : ¬(pixelKeep px ∧ pixelBin bins px = b) := by
      rintro ⟨hk, -⟩
      simp only [pixelKeep] at hk
      omega
    simp [hnk]
  case isFalse halpha =>
    split
    case isTrue hskip =>
      have hnk : ¬(pixelKeep px ∧ pixelBin bins px = b) := by
        rintro ⟨hk, -⟩
        simp only [pixelKeep] at hk
        obtain ⟨-, hs, hl5, hl95⟩ := hk
        rcases hskip with h | h | h <;> omega
      simp [hnk]
    case isFalse hskip =>
      push_neg at halpha hskip
      obtain ⟨hs, hl5, hl95⟩ := hskip
      have hk : pixelKeep px := ⟨by omega, hs, hl5, hl95⟩
      by_cases hbin : pixelBin bins px = b
      · subst hbin
        refine ⟨?_, ?_, ?_⟩
        · rw [getD_set_self_of_lt (by rw [hlen]; exact pixelBin_lt (by omega) px),
            if_pos ⟨hk, rfl⟩]
        · rw [getD_set_self_of_lt (by rw [hlen2]; exact pixelBin_lt (by omega) px),
            if_pos ⟨hk, rfl⟩]
          rfl
        · rw [getD_set_self_of_lt (by rw [hlen3]; exact pixelBin_lt (by omega) px),
            if_pos ⟨hk, rfl⟩]
          rfl
      · refine ⟨?_, ?_, ?_⟩ <;>
          rw [getD_set_ne_eq hbin, if_neg (by rintro ⟨-, h⟩; exact hbin h)] <;>
          ring

lemma foldl_histStep_getD (bins b : ℕ) (hb : b < bins) :
    ∀ (pixels : List Pixel) (st : HistogramData),
      st.histogram.length = bins → st.saturationSum.length = bins →
      st.lightnessSum.length = bins →
      (pixels.foldl (histStep bins) st).histogram.getD b 0 =
        st.histogram.getD b 0 + (pixels.map (fun px =>
          if pixelKeep px ∧ pixelBin bins px = b then pixelWeight px else 0)).sum ∧
      (pixels.foldl (histStep bins) st).saturationSum.getD b 0 =
        st.saturationSum.getD b 0 + (pixels.map (fun px =>
          if pixelKeep px ∧ pixelBin bins px = b then pixelSat px * pixelWeight px else 0)).sum ∧
      (pixels.foldl (histStep bins) st).lightnessSum.getD b 0 =
        st.lightnessSum.getD b 0 + (pixels.map (fun px =>
          if pixelKeep px ∧ pixelBin bins px = b then pixelLight px * pixelWeight px else 0)).sum := by
  intro pixels
  induction pixels with
  | nil => intro st h1 h2 h3; simp
  | cons px rest ih =>
    intro st h1 h2 h3
    obtain ⟨l1, l2, l3⟩ := histStep_length bins st px
    obtain ⟨e1, e2, e3⟩ := ih (histStep bins st px) (by omega) (by omega) (by omega)
    obtain ⟨s1, s2, s3⟩ := histStep_getD bins b hb st h1 h2 h3 px
    rw [List.foldl_cons, List.map_cons, List.sum_cons, List.map_cons, List.sum_cons,
      List.map_cons, List.sum_cons]
    refine ⟨?_, ?_, ?_⟩
    · rw [e1, s1]; ring
    · rw [e2, s2]; ring
    · rw [e3, s3]; ring

end LemmasC5

section ClaimC5

/-- Claim C5 (confirmed): each entry of the three arrays returned by the
histogram builder is exactly the sum, over the pixels of the buffer, of
the claim's per-pixel contribution: a pixel is skipped when its alpha is
below 200 or its HSL saturation is below 10 or its lightness is outside
[5, 95] (`pixelKeep`); a kept pixel contributes
`weight = (saturation/100) * (1 - |lightness - 50|/50)` (`pixelWeight`)
to `weight[bin]`, and `saturation*weight` and `lightness*weight` to the
sum arrays, at `bin = floor(hue / (360/bins)) mod bins` (`pixelBin`). -/
theorem extractHueHistogram_entries (pixels : List Pixel) (bins b : ℕ)
    (hb : b < bins) :
    (extractHueHistogram pixels bins).histogram.getD b 0 =
      (pixels.map (fun px =>
        if pixelKeep px ∧ pixelBin bins px = b then pixelWeight px else 0)).sum ∧
    (extractHueHistogram pixels bins).saturationSum.getD b 0 =
      (pixels.map (fun px =>
        if pixelKeep px ∧ pixelBin bins px = b then pixelSat px * pixelWeight px else 0)).sum ∧
    (extractHueHistogram pixels bins).lightnessSum.getD b 0 =
      (pixels.map (fun px =>
        if pixelKeep px ∧ pixelBin bins px = b then pixelLight px * pixelWeight px else 0)).sum := by
  unfold extractHueHistogram
  obtain ⟨e1, e2, e3⟩ := foldl_histStep_getD bins b hb pixels
    ⟨List.replicate bins 0, List.replicate bins 0, List.replicate bins 0⟩
    (by simp) (by simp) (by simp)
  rw [e1, e2, e3]
  simp [replicate_getD_zero]

/-- Witness for C5: one opaque pure-red pixel lands in bin 0 of a 36-bin
histogram with weight 1. -/
theorem extractHueHistogram_entries_witness :
    (extractHueHistogram [⟨255, 0, 0, 255⟩] 36).histogram.getD 0 0 =
      (([⟨255, 0, 0, 255⟩] : List Pixel).map (fun px =>
        if pixelKeep px ∧ pixelBin 36 px = 0 then pixelWeight px else 0)).sum :=
  (extractHueHistogram_entries [⟨255, 0, 0, 255⟩] 36 0 (by decide)).1

end ClaimC5

section ClaimC3

/-- Claim C3 (amended): the circular Gaussian smoother preserves the
total mass exactly whenever the effective kernel size
`min(ceil(6σ) forced odd, n)` is odd — in particular whenever `n` is odd
or `n ≥ ceil(6σ) | 1`.  When the array length `n` is even and smaller
than the odd forced size, the source truncates the generated kernel (the
generated list has `2⌊n/2⌋ + 1 = n + 1` entries but only `n` are used),
the used weights sum to less than 1, and mass is lost — see the
counterexample.  (For `0 < sigma` the kernel entries are positive, so
the normalization divides by a positive sum.) -/
theorem gaussianSmooth_sum_eq (histogram : List ℝ) (sigma : ℝ) (hsig : 0 < sigma)
    (hodd : Odd (min (⌈sigma * 6⌉.toNat ||| 1) histogram.length)) :
    (gaussianSmooth histogram sigma).sum = histogram.sum := by
  have hmod : min (⌈sigma * 6⌉.toNat ||| 1) histogram.length % 2 = 1 := Nat.odd_iff.mp hodd
  have hle : min (⌈sigma * 6⌉.toNat ||| 1) histogram.length ≤ histogram.length :=
    min_le_right _ _
  have hpos := hsig
  simp only [gaussianSmooth]
  rw [list_range_map_sum, Finset.sum_comm]
  exact smooth_sum_aux histogram (generateGaussianKernel sigma _) _
    (by rw [generateGaussianKernel_length]; omega)
    (generateGaussianKernel_sum _ _) hle (by omega)

/-- Witness for C3: a length-3 array with `sigma = 1` (kernel size
`min(7, 3) = 3`, odd) keeps its total mass. -/
theorem gaussianSmooth_sum_eq_witness :
    (0 : ℝ) < 1 ∧ Odd (min (⌈(1 : ℝ) * 6⌉.toNat ||| 1) ([1, 1, 1] : List ℝ).length) ∧
      (gaussianSmooth [1, 1, 1] 1).sum = ([1, 1, 1] : List ℝ).sum :=
  ⟨by norm_num,
   by rw [show ⌈(1 : ℝ) * 6⌉ = 6 from by norm_num]; decide,
   gaussianSmooth_sum_eq [1, 1, 1] 1 (by norm_num)
     (by rw [show ⌈(1 : ℝ) * 6⌉ = 6 from by norm_num]; decide)⟩

/-- Counterexample for C3 as stated: for the length-2 array `[1, 1]`
with `sigma = 1 > 0`, the kernel size is `min(7, 2) = 2` (even); the
generated kernel has 3 entries `[e^{-1/2}, 1, e^{-1/2}]/Z` but only the
first two are used, so the smoothed total `2(1 + e^{-1/2})/(1 + 2e^{-1/2})`
differs from the input total 2 — the loss is exact, not a floating
tolerance. -/
theorem gaussianSmooth_mass_loss_cx :
    (0 : ℝ) < 1 ∧ (gaussianSmooth [1, 1] 1).sum ≠ ([1, 1] : List ℝ).sum := by
  refine ⟨by norm_num, ?_⟩
  have h6 : ⌈(1 : ℝ) * 6⌉ = 6 := by norm_num
  have hker : generateGaussianKernel 1 2 =
      [Real.exp (-(1/2)) / (Real.exp (-(1/2)) + 1 + Real.exp (-(1/2))),
       1 / (Real.exp (-(1/2)) + 1 + Real.exp (-(1/2))),
       Real.exp (-(1/2)) / (Real.exp (-(1/2)) + 1 + Real.exp (-(1/2)))] := by
    simp only [generateGaussianKernel]
    norm_num [List.range_succ, Finset.sum_range_succ]
    refine ⟨by ring_nf, by ring_nf, by ring_nf⟩
  have hsm : gaussianSmooth [1, 1] 1 =
      [(1 + Real.exp (-(1/2))) / (Real.exp (-(1/2)) + 1 + Real.exp (-(1/2))),
       (1 + Real.exp (-(1/2))) / (Real.exp (-(1/2)) + 1 + Real.exp (-(1/2)))] := by
    have hks : (Int.toNat 6 ||| 1) ⊓ 2 = 2 := by decide
    simp only [gaussianSmooth, h6]
    norm_num [hks, List.range_succ, Finset.sum_range_succ, hker]
    have hZ0 : Real.exp (-(1/2 : ℝ)) + 1 + Real.exp (-(1/2 : ℝ)) ≠ 0 := by positivity
    all_goals (field_simp; try ring)
  rw [hsm]
  simp only [List.sum_cons, List.sum_nil]
  intro heq
  have hx : 0 < Real.exp (-(1/2 : ℝ)) := Real.exp_pos _
  have hZ : Real.exp (-(1/2 : ℝ)) + 1 + Real.exp (-(1/2 : ℝ)) ≠ 0 := by positivity
  field_simp at heq
  linarith

end ClaimC3

section LemmasRound

lemma round_nonneg_of {x : ℚ} (hx : 0 ≤ x) : 0 ≤ round x := by
  rw [round_eq]
  exact Int.floor_nonneg.mpr (by linarith)

lemma round_le_int {x : ℚ} {m : ℤ} (hx : x ≤ m) : round x ≤ m := by
  rw [round_eq]
  have h1 : ⌊x + 1/2⌋ ≤ ⌊(m : ℚ) + 1/2⌋ := Int.floor_le_floor (by linarith)
  have h2 : ⌊(m : ℚ) + 1/2⌋ = m := by
    rw [add_comm, Int.floor_add_int]
    norm_num
  omega

end LemmasRound

section ClaimC7

/-- Claim C7 (amended): for channels in `[0, 255]`, `rgbToHsl` returns
hue in `[0, 360]` — the upper endpoint 360 IS attained, by rounding, for
inputs whose exact hue exceeds 359.5 (see the counterexample); the
original half-open range `[0, 360)` is therefore false.  Saturation and
lightness lie in `[0, 100]`, all three outputs are integers (the
codomain is `ℤ`, each via `Math.round`), and achromatic input
(`r = g = b`, i.e. max channel = min channel) yields hue 0 and
saturation 0. -/
theorem rgbToHsl_range (r g b : ℚ) (hr0 : 0 ≤ r) (hr1 : r ≤ 255)
    (hg0 : 0 ≤ g) (hg1 : g ≤ 255) (hb0 : 0 ≤ b) (hb1 : b ≤ 255) :
    0 ≤ (rgbToHsl r g b).1 ∧ (rgbToHsl r g b).1 ≤ 360 ∧
    0 ≤ (rgbToHsl r g b).2.1 ∧ (rgbToHsl r g b).2.1 ≤ 100 ∧
    0 ≤ (rgbToHsl r g b).2.2 ∧ (rgbToHsl r g b).2.2 ≤ 100 ∧
    (r = g ∧ g = b → (rgbToHsl r g b).1 = 0 ∧ (rgbToHsl r g b).2.1 = 0) := by
  simp only [rgbToHsl]
  set r' := r / 255 with hr'
  set g' := g / 255 with hg'
  set b' := b / 255 with hb'
  set maxC := max r' (max g' b') with hmaxC
  set minC := min r' (min g' b') with hminC
  have hr'0 : 0 ≤ r' := by rw [hr']; positivity
  have hg'0 : 0 ≤ g' := by rw [hg']; positivity
  have hb'0 : 0 ≤ b' := by rw [hb']; positivity
  have hr'1 : r' ≤ 1 := by rw [hr']; linarith
  have hg'1 : g' ≤ 1 := by rw [hg']; linarith
  have hb'1 : b' ≤ 1 := by rw [hb']; linarith
  have hmax1 : maxC ≤ 1 := by rw [hmaxC]; exact max_le hr'1 (max_le hg'1 hb'1)
  have hmin0 : 0 ≤ minC := by rw [hminC]; exact le_min hr'0 (le_min hg'0 hb'0)
  have hminmax : minC ≤ maxC := by
    rw [hminC, hmaxC]
    exact le_trans (min_le_left _ _) (le_max_left _ _)
  have hrle : r' ≤ maxC := le_max_left _ _
  have hgle : g' ≤ maxC := le_trans (le_max_left _ _) (le_max_right _ _)
  have hble : b' ≤ maxC := le_trans (le_max_right _ _) (le_max_right _ _)
  have hrge : minC ≤ r' := min_le_left _ _
  have hgge : minC ≤ g' := le_trans (min_le_right _ _) (min_le_left _ _)
  have hbge : minC ≤ b' := le_trans (min_le_right _ _) (min_le_right _ _)
  have hl0 : 0 ≤ (maxC + minC) / 2 * 100 := by positivity
  have hl1 : (maxC + minC) / 2 * 100 ≤ (100 : ℤ) := by push_cast; linarith
  split
  case isTrue heq =>
    refine ⟨le_rfl, by norm_num, le_rfl, by norm_num,
      round_nonneg_of hl0, round_le_int hl1, fun _ => ⟨rfl, rfl⟩⟩
  case isFalse hne =>
    have hlt : minC < maxC := lt_of_le_of_ne hminmax (fun h => hne h.symm)
    have hd : 0 < maxC - minC := by linarith
    refine ⟨?_, ?_, ?_, ?_, round_nonneg_of hl0, round_le_int hl1, ?_⟩
    · apply round_nonneg_of
      have hh0 : 0 ≤ (if maxC = r' then ((g' - b') / (maxC - minC) +
          (if g' < b' then (6:ℚ) else 0)) / 6
        else if maxC = g' then ((b' - r') / (maxC - minC) + 2) / 6
        else ((r' - g') / (maxC - minC) + 4) / 6) := by
        split
        · split
          case isTrue hgb =>
            have hq : (g' - b') / (maxC - minC) ≥ -1 := by
              rw [ge_iff_le, neg_le, ← neg_div, div_le_one hd]
              linarith
            linarith
          case isFalse hgb =>
            have hq : (g' - b') / (maxC - minC) ≥ 0 := by
              apply div_nonneg _ hd.le
              push_neg at hgb
              linarith
            linarith
        · split
          · have hq : (b' - r') / (maxC - minC) ≥ -1 := by
              rw [ge_iff_le, neg_le, ← neg_div, div_le_one hd]
              linarith
            linarith
          · have hq : (r' - g') / (maxC - minC) ≥ -1 := by
              rw [ge_iff_le, neg_le, ← neg_div, div_le_one hd]
              linarith
            linarith
      exact mul_nonneg hh0 (by norm_num)
    · apply round_le_int
      have hh1 : (if maxC = r' then ((g' - b') / (maxC - minC) +
          (if g' < b' then (6:ℚ) else 0)) / 6
        else if maxC = g' then ((b' - r') / (maxC - minC) + 2) / 6
        else ((r' - g') / (maxC - minC) + 4) / 6) ≤ 1 := by
        split
        case isTrue hmr =>
          split
          case isTrue hgb =>
            have hq : (g' - b') / (maxC - minC) ≤ 0 :=
              div_nonpos_of_nonpos_of_nonneg (by linarith) hd.le
            linarith
          case isFalse hgb =>
            have hq : (g' - b') / (maxC - minC) ≤ 1 := by
              rw [div_le_one hd]
              linarith
            linarith
        case isFalse hmr =>
          split
          · have hq : (b' - r') / (maxC - minC) ≤ 1 := by
              rw [div_le_one hd]
              linarith
            linarith
          · have hq : (r' - g') / (maxC - minC) ≤ 1 := by
              rw [div_le_one hd]
              linarith
            linarith
      push_cast
      have hmul := mul_le_mul_of_nonneg_right hh1 (by norm_num : (0:ℚ) ≤ 360)
      linarith
    · apply round_nonneg_of
      have hs0 : 0 ≤ (if (maxC + minC) / 2 > 1/2 then
          (maxC - minC) / (2 - maxC - minC) else (maxC - minC) / (maxC + minC)) := by
        split
        case isTrue hl =>
          apply div_nonneg hd.le
          linarith
        case isFalse hl =>
          apply div_nonneg hd.le
          linarith
      exact mul_nonneg hs0 (by norm_num)
    · apply round_le_int
      have hs1 : (if (maxC + minC) / 2 > 1/2 then
          (maxC - minC) / (2 - maxC - minC) else (maxC - minC) / (maxC + minC)) ≤ 1 := by
        split
        case isTrue hl =>
          have hden : 0 < 2 - maxC - minC := by linarith
          rw [div_le_one hden]
          linarith
        case isFalse hl =>
          have hden : 0 < maxC + minC := by linarith
          rw [div_le_one hden]
          linarith
      push_cast
      have hmul := mul_le_mul_of_nonneg_right hs1 (by norm_num : (0:ℚ) ≤ 100)
      linarith
    · rintro ⟨h1, h2⟩
      exfalso
      apply hne
      have e1 : g' = r' := by rw [hg', hr', h1]
      have e2 : b' = r' := by rw [hb', hr', ← h2, ← h1]
      rw [hmaxC, hminC, e1, e2, max_self, max_self, min_self, min_self]

/-- Witness for C7: the counterexample input (121, 0, 1) satisfies the
amended bounds — its hue is exactly the attained endpoint 360. -/
theorem rgbToHsl_range_witness :
    0 ≤ (rgbToHsl 121 0 1).1 ∧ (rgbToHsl 121 0 1).1 ≤ 360 ∧
    0 ≤ (rgbToHsl 121 0 1).2.1 ∧ (rgbToHsl 121 0 1).2.1 ≤ 100 ∧
    0 ≤ (rgbToHsl 121 0 1).2.2 ∧ (rgbToHsl 121 0 1).2.2 ≤ 100 ∧
    ((121 : ℚ) = 0 ∧ (0 : ℚ) = 1 →
      (rgbToHsl 121 0 1).1 = 0 ∧ (rgbToHsl 121 0 1).2.1 = 0) :=
  rgbToHsl_range 121 0 1 (by norm_num) (by norm_num) (by norm_num)
    (by norm_num) (by norm_num) (by norm_num)

/-- Counterexample for C7 as stated: the integer input (121, 0, 1) has
exact hue `360 - 60/121 ≈ 359.504`, which `Math.round` carries to 360 —
outside the claimed half-open range `[0, 360)`. -/
theorem rgbToHsl_hue_360_cx :
    rgbToHsl 121 0 1 = (360, 100, 24) ∧ ¬((360 : ℤ) < 360) :=
  ⟨by with_unfolding_all decide, by decide⟩

end ClaimC7

section LemmasC8

lemma branch_eq (p q u : ℚ) :
    (if u < 1/6 then p + (q - p) * 6 * u
     else if u < 1/2 then q
     else if u < 2/3 then p + (q - p) * (2/3 - u) * 6
     else p) = p + (q - p) * lam0 u := by
  simp only [lam0]
  split
  · ring
  · split
    · ring
    · split
      · ring
      · ring

lemma hue2rgb_eq (p q t : ℚ) : hue2rgb p q t = p + (q - p) * lamW t := by
  simp only [hue2rgb, lamW, wrapT]
  exact branch_eq p q _

lemma wrapT_of_neg {t : ℚ} (h : t < 0) : wrapT t = t + 1 := by
  simp only [wrapT]
  rw [if_pos h, if_neg (not_lt.mpr (by linarith : t + 1 ≤ 1))]

lemma wrapT_of_mid {t : ℚ} (h0 : 0 ≤ t) (h1 : t ≤ 1) : wrapT t = t := by
  simp only [wrapT]
  rw [if_neg (not_lt.mpr h0), if_neg (not_lt.mpr h1)]

lemma wrapT_of_hi {t : ℚ} (h : 1 < t) : wrapT t = t - 1 := by
  simp only [wrapT]
  rw [if_neg (not_lt.mpr (by linarith : (0:ℚ) ≤ t)), if_pos h]

lemma lam0_lo {u : ℚ} (h : u < 1/6) : lam0 u = 6 * u := by
  simp only [lam0]
  rw [if_pos h]

lemma lam0_lo6 {u : ℚ} (h : u ≤ 1/6) : lam0 u = 6 * u := by
  rcases lt_or_eq_of_le h with h' | h'
  · exact lam0_lo h'
  · simp only [lam0, h']
    norm_num

lemma lam0_one {u : ℚ} (ha : 1/6 ≤ u) (hb : u ≤ 1/2) : lam0 u = 1 := by
  simp only [lam0]
  rw [if_neg (not_lt.mpr ha)]
  by_cases h : u < 1/2
  · rw [if_pos h]
  · have he : u = 1/2 := le_antisymm hb (not_lt.mp h)
    rw [if_neg h, if_pos (by rw [he]; norm_num)]
    rw [he]
    norm_num

lemma lam0_third {u : ℚ} (ha : 1/2 ≤ u) (hb : u < 2/3) : lam0 u = (2/3 - u) * 6 := by
  simp only [lam0]
  rw [if_neg (not_lt.mpr (by linarith : (1:ℚ)/6 ≤ u)), if_neg (not_lt.mpr ha), if_pos hb]

lemma lam0_hi {u : ℚ} (h : 2/3 ≤ u) : lam0 u = 0 := by
  simp only [lam0]
  rw [if_neg (not_lt.mpr (by linarith : (1:ℚ)/6 ≤ u)),
    if_neg (not_lt.mpr (by linarith : (1:ℚ)/2 ≤ u)), if_neg (not_lt.mpr h)]

lemma lam0_mem {u : ℚ} (h0 : 0 ≤ u) : 0 ≤ lam0 u ∧ lam0 u ≤ 1 := by
  simp only [lam0]
  split
  · exact ⟨by linarith, by linarith⟩
  · split
    · exact ⟨by norm_num, le_refl 1⟩
    · split
      · next h1 h2 h3 => exact ⟨by linarith, by linarith [not_lt.mp h2]⟩
      · exact ⟨le_refl 0, by norm_num⟩

lemma wrapT_mem {t : ℚ} (h1 : -1 ≤ t) (h2 : t ≤ 2) : 0 ≤ wrapT t ∧ wrapT t ≤ 1 := by
  simp only [wrapT]
  split
  · next h =>
    rw [if_neg (not_lt.mpr (by linarith : t + 1 ≤ 1))]
    exact ⟨by linarith, by linarith⟩
  · next h =>
    split
    · next h' => exact ⟨by linarith, by linarith⟩
    · next h' => exact ⟨by linarith [not_lt.mp h], by linarith [not_lt.mp h']⟩

lemma lamW_mem {t : ℚ} (h1 : -1 ≤ t) (h2 : t ≤ 2) : 0 ≤ lamW t ∧ lamW t ≤ 1 := by
  rw [lamW]
  exact lam0_mem (wrapT_mem h1 h2).1

lemma lam0_eq_clamp (u : ℚ) (h0 : 0 ≤ u) (h1 : u ≤ 1) :
    lam0 u = min 1 (max 0 (min (6 * u) ((2/3 - u) * 6))) := by
  simp only [lam0]
  split
  · next h =>
    rw [min_eq_left (by linarith : 6 * u ≤ (2/3 - u) * 6),
      max_eq_right (by linarith : (0:ℚ) ≤ 6 * u),
      min_eq_right (by linarith : 6 * u ≤ 1)]
  · next h =>
    split
    · next h' =>
      rw [min_eq_left (le_trans (le_min (by linarith [not_lt.mp h]) (by linarith))
        (le_max_right 0 _))]
    · next h' =>
      split
      · next h'' =>
        rw [min_eq_right (by linarith [not_lt.mp h'] : (2/3 - u) * 6 ≤ 6 * u),
          max_eq_right (by linarith : (0:ℚ) ≤ (2/3 - u) * 6),
          min_eq_right (by linarith [not_lt.mp h'] : (2/3 - u) * 6 ≤ 1)]
      · next h'' =>
        rw [max_eq_left (le_trans (min_le_right _ _)
            (by linarith [not_lt.mp h''] : (2/3 - u) * 6 ≤ 0)),
          min_eq_right (by norm_num : (0:ℚ) ≤ 1)]

lemma clamp_lip (X Y C : ℚ) (h : |X - Y| ≤ C) :
    |min 1 (max 0 X) - min 1 (max 0 Y)| ≤ C := by
  have hC : 0 ≤ C := le_trans (abs_nonneg _) h
  have h1 : |max 0 X - max 0 Y| ≤ C := by
    refine le_trans (abs_max_sub_max_le_max 0 X 0 Y) ?_
    rw [sub_self, abs_zero, max_le_iff]
    exact ⟨hC, h⟩
  refine le_trans (abs_min_sub_min_le_max 1 _ 1 _) ?_
  rw [sub_self, abs_zero, max_le_iff]
  exact ⟨hC, h1⟩

lemma inner_lip (u v : ℚ) :
    |min (6 * u) ((2/3 - u) * 6) - min (6 * v) ((2/3 - v) * 6)| ≤ 6 * |u - v| := by
  refine le_trans (abs_min_sub_min_le_max _ _ _ _) ?_
  rw [max_le_iff]
  constructor
  · rw [show 6 * u - 6 * v = 6 * (u - v) by ring, abs_mul,
      abs_of_nonneg (by norm_num : (0:ℚ) ≤ 6)]
  · rw [show (2/3 - u) * 6 - (2/3 - v) * 6 = 6 * (v - u) by ring, abs_mul,
      abs_of_nonneg (by norm_num : (0:ℚ) ≤ 6), abs_sub_comm v u]

lemma lam0_lip (u v : ℚ) (hu0 : 0 ≤ u) (hu1 : u ≤ 1) (hv0 : 0 ≤ v) (hv1 : v ≤ 1) :
    |lam0 u - lam0 v| ≤ 6 * |u - v| := by
  rw [lam0_eq_clamp u hu0 hu1, lam0_eq_clamp v hv0 hv1]
  exact clamp_lip _ _ _ (inner_lip u v)

/-- `lamW` is 6-Lipschitz for nearby arguments in the range that the
round-trip produces (shifted hues in `[-1/3, 4/3]`). -/
lemma lamW_lip (t1 t2 : ℚ) (ha : -1/3 ≤ t1) (hb : t1 ≤ 4/3) (hc : -1/3 ≤ t2)
    (hd : t2 ≤ 4/3) (hcl : |t1 - t2| ≤ 1/720) :
    |lamW t1 - lamW t2| ≤ 6 * |t1 - t2| := by
  simp only [lamW]
  obtain ⟨h1, h2⟩ := abs_le.mp hcl
  rcases lt_or_ge t1 0 with p1 | p1
  · rcases lt_or_ge t2 0 with p2 | p2
    · rw [wrapT_of_neg p1, wrapT_of_neg p2]
      have hlip := lam0_lip (t1 + 1) (t2 + 1) (by linarith) (by linarith)
        (by linarith) (by linarith)
      calc |lam0 (t1 + 1) - lam0 (t2 + 1)| ≤ 6 * |t1 + 1 - (t2 + 1)| := hlip
        _ = 6 * |t1 - t2| := by rw [show t1 + 1 - (t2 + 1) = t1 - t2 by ring]
    · rcases le_or_lt t2 1 with q2 | q2
      · rw [wrapT_of_neg p1, wrapT_of_mid p2 q2,
          lam0_hi (by linarith : (2:ℚ)/3 ≤ t1 + 1), lam0_lo (by linarith : t2 < 1/6)]
        rw [zero_sub, abs_neg, abs_of_nonneg (by linarith : (0:ℚ) ≤ 6 * t2),
          abs_sub_comm, abs_of_nonneg (by linarith : (0:ℚ) ≤ t2 - t1)]
        linarith
      · exfalso; linarith
  · rcases le_or_lt t1 1 with q1 | q1
    · rcases lt_or_ge t2 0 with p2 | p2
      · rw [wrapT_of_mid p1 q1, wrapT_of_neg p2,
          lam0_lo (by linarith : t1 < 1/6), lam0_hi (by linarith : (2:ℚ)/3 ≤ t2 + 1)]
        rw [sub_zero, abs_of_nonneg (by linarith : (0:ℚ) ≤ 6 * t1),
          abs_of_nonneg (by linarith : (0:ℚ) ≤ t1 - t2)]
        linarith
      · rcases le_or_lt t2 1 with q2 | q2
        · rw [wrapT_of_mid p1 q1, wrapT_of_mid p2 q2]
          exact lam0_lip t1 t2 p1 q1 p2 q2
        · rw [wrapT_of_mid p1 q1, wrapT_of_hi q2,
            lam0_hi (by linarith : (2:ℚ)/3 ≤ t1), lam0_lo (by linarith : t2 - 1 < 1/6)]
          rw [zero_sub, abs_neg, abs_of_nonneg (by linarith : (0:ℚ) ≤ 6 * (t2 - 1)),
            abs_sub_comm, abs_of_nonneg (by linarith : (0:ℚ) ≤ t2 - t1)]
          linarith
    · rcases lt_or_ge t2 0 with p2 | p2
      · exfalso; linarith
      · rcases le_or_lt t2 1 with q2 | q2
        · rw [wrapT_of_hi q1, wrapT_of_mid p2 q2,
            lam0_lo (by linarith : t1 - 1 < 1/6), lam0_hi (by linarith : (2:ℚ)/3 ≤ t2)]
          rw [sub_zero, abs_of_nonneg (by linarith : (0:ℚ) ≤ 6 * (t1 - 1)),
            abs_of_nonneg (by linarith : (0:ℚ) ≤ t1 - t2)]
          linarith
        · rw [wrapT_of_hi q1, wrapT_of_hi q2]
          have hlip := lam0_lip (t1 - 1) (t2 - 1) (by linarith) (by linarith)
            (by linarith) (by linarith)
          calc |lam0 (t1 - 1) - lam0 (t2 - 1)| ≤ 6 * |t1 - 1 - (t2 - 1)| := hlip
            _ = 6 * |t1 - t2| := by rw [show t1 - 1 - (t2 - 1) = t1 - t2 by ring]

/-- At the exact (unrounded) hue produced by `rgbToHsl`, the `hue2rgb`
interpolation factor at the three shifted arguments reproduces exactly the
normalized distances of the three channels from the minimum. -/
lemma hue_exact (r' g' b' maxC minC d h : ℚ)
    (hmax : maxC = max r' (max g' b')) (hmin : minC = min r' (min g' b'))
    (hd : d = maxC - minC) (hlt : minC < maxC)
    (hh : h = (if maxC = r' then ((g' - b') / d + (if g' < b' then (6:ℚ) else 0)) / 6
      else if maxC = g' then ((b' - r') / d + 2) / 6
      else ((r' - g') / d + 4) / 6)) :
    lamW (h + 1/3) = (r' - minC) / d ∧ lamW h = (g' - minC) / d ∧
      lamW (h - 1/3) = (b' - minC) / d := by
  have hd0 : 0 < d := by rw [hd]; linarith
  have hrle : r' ≤ maxC := by rw [hmax]; exact le_max_left _ _
  have hgle : g' ≤ maxC := by
    rw [hmax]; exact le_trans (le_max_left _ _) (le_max_right _ _)
  have hble : b' ≤ maxC := by
    rw [hmax]; exact le_trans (le_max_right _ _) (le_max_right _ _)
  have hrge : minC ≤ r' := by rw [hmin]; exact min_le_left _ _
  have hgge : minC ≤ g' := by
    rw [hmin]; exact le_trans (min_le_right _ _) (min_le_left _ _)
  have hbge : minC ≤ b' := by
    rw [hmin]; exact le_trans (min_le_right _ _) (min_le_right _ _)
  by_cases hR : maxC = r'
  · by_cases hgb : g' < b'
    · -- max = r', g' < b': min = g'
      rw [if_pos hR, if_pos hgb] at hh
      have hmC : minC = g' := le_antisymm hgge
        (by rw [hmin]; exact le_min (by rw [← hR]; exact hgle) (le_min le_rfl hgb.le))
      set u := (b' - g') / d with hu
      have hu0 : 0 < u := div_pos (by linarith) hd0
      have hu1 : u ≤ 1 := (div_le_one hd0).mpr (by rw [hd, ← hmC]; linarith)
      have hgbd : (g' - b') / d = -u := by rw [hu]; ring
      have hh' : h = 1 - u / 6 := by rw [hh, hgbd]; ring
      have hrT : (r' - minC) / d = 1 := by rw [← hR, ← hd]; exact div_self hd0.ne'
      have hgT : (g' - minC) / d = 0 := by rw [hmC, sub_self, zero_div]
      have hbT : (b' - minC) / d = u := by rw [hmC, ← hu]
      refine ⟨?_, ?_, ?_⟩
      · rw [hrT, hh', lamW, wrapT_of_hi (by linarith),
          lam0_one (by linarith) (by linarith)]
      · rw [hgT, hh', lamW, wrapT_of_mid (by linarith) (by linarith),
          lam0_hi (by linarith)]
      · rw [hbT, hh', lamW, wrapT_of_mid (by linarith) (by linarith),
          lam0_third (by linarith) (by linarith)]
        ring
    · -- max = r', b' ≤ g': min = b'
      rw [if_pos hR, if_neg hgb] at hh
      have hbg : b' ≤ g' := not_lt.mp hgb
      have hmC : minC = b' := le_antisymm hbge
        (by rw [hmin]; exact le_min (by rw [← hR]; exact hble) (le_min hbg le_rfl))
      set u := (g' - b') / d with hu
      have hu0 : 0 ≤ u := div_nonneg (by linarith) hd0.le
      have hu1 : u ≤ 1 := (div_le_one hd0).mpr (by rw [hd, ← hmC]; linarith)
      have hh' : h = u / 6 := by rw [hh]; ring
      have hrT : (r' - minC) / d = 1 := by rw [← hR, ← hd]; exact div_self hd0.ne'
      have hgT : (g' - minC) / d = u := by rw [hmC, ← hu]
      have hbT : (b' - minC) / d = 0 := by rw [hmC, sub_self, zero_div]
      refine ⟨?_, ?_, ?_⟩
      · rw [hrT, hh', lamW, wrapT_of_mid (by linarith) (by linarith),
          lam0_one (by linarith) (by linarith)]
      · rw [hgT, hh', lamW, wrapT_of_mid (by linarith) (by linarith),
          lam0_lo6 (by linarith)]
        ring
      · rw [hbT, hh', lamW, wrapT_of_neg (by linarith),
          lam0_hi (by linarith)]
  · by_cases hG : maxC = g'
    · -- max = g'
      rw [if_neg hR, if_pos hG] at hh
      rcases le_total b' r' with hbr | hrb
      · -- min = b'
        have hmC : minC = b' := le_antisymm hbge
          (by rw [hmin]; exact le_min hbr (le_min (by rw [← hG]; exact hble) le_rfl))
        set u := (r' - b') / d with hu
        have hu0 : 0 ≤ u := div_nonneg (by linarith) hd0.le
        have hu1 : u ≤ 1 := (div_le_one hd0).mpr (by rw [hd, ← hmC]; linarith)
        have hbrd : (b' - r') / d = -u := by rw [hu]; ring
        have hh' : h = 1/3 - u / 6 := by rw [hh, hbrd]; ring
        have hrT : (r' - minC) / d = u := by rw [hmC, ← hu]
        have hgT : (g' - minC) / d = 1 := by rw [← hG, ← hd]; exact div_self hd0.ne'
        have hbT : (b' - minC) / d = 0 := by rw [hmC, sub_self, zero_div]
        refine ⟨?_, ?_, ?_⟩
        · rcases eq_or_lt_of_le hu0 with h0 | h0
          · rw [hrT, hh', ← h0, lamW, wrapT_of_mid (by norm_num) (by norm_num),
              lam0_hi (by norm_num)]
          · rw [hrT, hh', lamW, wrapT_of_mid (by linarith) (by linarith),
              lam0_third (by linarith) (by linarith)]
            ring
        · rw [hgT, hh', lamW, wrapT_of_mid (by linarith) (by linarith),
            lam0_one (by linarith) (by linarith)]
        · rcases eq_or_lt_of_le hu0 with h0 | h0
          · rw [hbT, hh', ← h0, lamW, wrapT_of_mid (by norm_num) (by norm_num),
              lam0_lo (by norm_num)]
            norm_num
          · rw [hbT, hh', lamW, wrapT_of_neg (by linarith),
              lam0_hi (by linarith)]
      · -- min = r'
        have hmC : minC = r' := le_antisymm hrge
          (by rw [hmin]; exact le_min le_rfl (le_min (by rw [← hG]; exact hrle) hrb))
        set u := (b' - r') / d with hu
        have hu0 : 0 ≤ u := div_nonneg (by linarith) hd0.le
        have hu1 : u ≤ 1 := (div_le_one hd0).mpr (by rw [hd, ← hmC]; linarith)
        have hh' : h = 1/3 + u / 6 := by rw [hh]; ring
        have hrT : (r' - minC) / d = 0 := by rw [hmC, sub_self, zero_div]
        have hgT : (g' - minC) / d = 1 := by rw [← hG, ← hd]; exact div_self hd0.ne'
        have hbT : (b' - minC) / d = u := by rw [hmC, ← hu]
        refine ⟨?_, ?_, ?_⟩
        · rw [hrT, hh', lamW, wrapT_of_mid (by linarith) (by linarith),
            lam0_hi (by linarith)]
        · rw [hgT, hh', lamW, wrapT_of_mid (by linarith) (by linarith),
            lam0_one (by linarith) (by linarith)]
        · rw [hbT, hh', lamW, wrapT_of_mid (by linarith) (by linarith),
            lam0_lo6 (by linarith)]
          ring
    · -- max = b'
      rw [if_neg hR, if_neg hG] at hh
      have hB : maxC = b' := by
        rcases max_choice r' (max g' b') with h' | h'
        · exact absurd (hmax.trans h') hR
        · rcases max_choice g' b' with h2 | h2
          · exact absurd (hmax.trans (h'.trans h2)) hG
          · exact hmax.trans (h'.trans h2)
      rcases le_total g' r' with hgr | hrg
      · -- min = g'
        have hmC : minC = g' := le_antisymm hgge
          (by rw [hmin]; exact le_min hgr (le_min le_rfl (by rw [← hB]; exact hgle)))
        set u := (r' - g') / d with hu
        have hu0 : 0 ≤ u := div_nonneg (by linarith) hd0.le
        have hu1 : u ≤ 1 := (div_le_one hd0).mpr (by rw [hd, ← hmC]; linarith)
        have hh' : h = 2/3 + u / 6 := by rw [hh]; ring
        have hrT : (r' - minC) / d = u := by rw [hmC, ← hu]
        have hgT : (g' - minC) / d = 0 := by rw [hmC, sub_self, zero_div]
        have hbT : (b' - minC) / d = 1 := by rw [← hB, ← hd]; exact div_self hd0.ne'
        refine ⟨?_, ?_, ?_⟩
        · rcases eq_or_lt_of_le hu0 with h0 | h0
          · rw [hrT, hh', ← h0, lamW, wrapT_of_mid (by norm_num) (by norm_num),
              lam0_hi (by norm_num)]
          · rw [hrT, hh', lamW, wrapT_of_hi (by linarith),
              lam0_lo6 (by linarith)]
            ring
        · rw [hgT, hh', lamW, wrapT_of_mid (by linarith) (by linarith),
            lam0_hi (by linarith)]
        · rw [hbT, hh', lamW, wrapT_of_mid (by linarith) (by linarith),
            lam0_one (by linarith) (by linarith)]
      · -- min = r'
        have hmC : minC = r' := le_antisymm hrge
          (by rw [hmin]; exact le_min le_rfl (le_min hrg (by rw [← hB]; exact hrle)))
        set u := (g' - r') / d with hu
        have hu0 : 0 ≤ u := div_nonneg (by linarith) hd0.le
        have hu1 : u ≤ 1 := (div_le_one hd0).mpr (by rw [hd, ← hmC]; linarith)
        have hrgd : (r' - g') / d = -u := by rw [hu]; ring
        have hh' : h = 2/3 - u / 6 := by rw [hh, hrgd]; ring
        have hrT : (r' - minC) / d = 0 := by rw [hmC, sub_self, zero_div]
        have hgT : (g' - minC) / d = u := by rw [hmC, ← hu]
        have hbT : (b' - minC) / d = 1 := by rw [← hB, ← hd]; exact div_self hd0.ne'
        refine ⟨?_, ?_, ?_⟩
        · rw [hrT, hh', lamW, wrapT_of_mid (by linarith) (by linarith),
            lam0_hi (by linarith)]
        · rcases eq_or_lt_of_le hu0 with h0 | h0
          · rw [hgT, hh', ← h0, lamW, wrapT_of_mid (by norm_num) (by norm_num),
              lam0_hi (by norm_num)]
          · rw [hgT, hh', lamW, wrapT_of_mid (by linarith) (by linarith),
              lam0_third (by linarith) (by linarith)]
            ring
        · rw [hbT, hh', lamW, wrapT_of_mid (by linarith) (by linarith),
            lam0_one (by linarith) (by linarith)]

lemma qform (l s : ℚ) :
    (if l < 1/2 then l * (1 + s) else l + s - l * s) = l + s * min l (1 - l) := by
  split
  · next h => rw [min_eq_left (by linarith : l ≤ 1 - l)]; ring
  · next h => rw [min_eq_right (by linarith [not_lt.mp h] : 1 - l ≤ l)]; ring

lemma sform (maxC minC : ℚ) (hlt : minC < maxC) (h0 : 0 ≤ minC) (h1 : maxC ≤ 1) :
    (if (maxC + minC) / 2 > 1/2 then (maxC - minC) / (2 - maxC - minC)
     else (maxC - minC) / (maxC + minC)) *
      min ((maxC + minC) / 2) (1 - (maxC + minC) / 2) = (maxC - minC) / 2 := by
  split
  · next h =>
    have hden : (0:ℚ) < 2 - maxC - minC := by linarith
    rw [min_eq_right (by linarith : 1 - (maxC + minC) / 2 ≤ (maxC + minC) / 2)]
    field_simp
    ring
  · next h =>
    have hl : (maxC + minC) / 2 ≤ 1/2 := not_lt.mp h
    have hden : (0:ℚ) < maxC + minC := by linarith
    rw [min_eq_left (by linarith : (maxC + minC) / 2 ≤ 1 - (maxC + minC) / 2)]
    field_simp

lemma minl_lip (a c : ℚ) : |min a (1 - a) - min c (1 - c)| ≤ |a - c| := by
  refine le_trans (abs_min_sub_min_le_max _ _ _ _) ?_
  rw [max_le_iff]
  refine ⟨le_refl _, ?_⟩
  rw [show 1 - a - (1 - c) = -(a - c) by ring, abs_neg]

/-- Rounding `x * k` and dividing back changes `x` by at most `1/(2k)`. -/
lemma round_scale (x k : ℚ) (hk : 0 < k) :
    |(round (x * k) : ℚ) / k - x| ≤ 1 / (2 * k) := by
  have he : (round (x * k) : ℚ) / k - x = ((round (x * k) : ℚ) - x * k) * (1 / k) := by
    field_simp
    ring
  rw [he, abs_mul, abs_of_nonneg (by positivity : (0:ℚ) ≤ 1 / k)]
  calc |(round (x * k) : ℚ) - x * k| * (1 / k) ≤ (1/2) * (1 / k) := by
        refine mul_le_mul_of_nonneg_right ?_ (by positivity)
        rw [abs_sub_comm]
        exact abs_sub_round _
    _ = 1 / (2 * k) := by ring

/-- The perturbed `q`/`p` stay within `1/80` of the exact `maxC`/`minC`:
rounding moves lightness and saturation by at most `1/200` each. -/
lemma qp_delta (lP sP lS sS : ℚ) (hl : |lP - lS| ≤ 1/200) (hs : |sP - sS| ≤ 1/200)
    (hsP0 : 0 ≤ sP) (hsP1 : sP ≤ 1) (hlS0 : 0 ≤ lS) (hlS1 : lS ≤ 1) :
    |(lP + sP * min lP (1 - lP)) - (lS + sS * min lS (1 - lS))| ≤ 1/80 ∧
    |(lP - sP * min lP (1 - lP)) - (lS - sS * min lS (1 - lS))| ≤ 1/80 := by
  have hmlip : |min lP (1 - lP) - min lS (1 - lS)| ≤ |lP - lS| := minl_lip lP lS
  have hmS0 : 0 ≤ min lS (1 - lS) := le_min hlS0 (by linarith)
  have hmS2 : min lS (1 - lS) ≤ 1/2 := by
    rcases le_total lS (1 - lS) with h | h
    · rw [min_eq_left h]; linarith
    · rw [min_eq_right h]; linarith
  have hmSabs : |min lS (1 - lS)| ≤ 1/2 := by
    rw [abs_of_nonneg hmS0]; exact hmS2
  have key : |sP * min lP (1 - lP) - sS * min lS (1 - lS)| ≤ 3/400 := by
    have hdec : sP * min lP (1 - lP) - sS * min lS (1 - lS)
        = sP * (min lP (1 - lP) - min lS (1 - lS)) + (sP - sS) * min lS (1 - lS) := by
      ring
    rw [hdec]
    refine le_trans (abs_add _ _) ?_
    rw [abs_mul, abs_mul, abs_of_nonneg hsP0]
    have t1 : sP * |min lP (1 - lP) - min lS (1 - lS)| ≤ 1 * (1/200) :=
      mul_le_mul hsP1 (le_trans hmlip hl) (abs_nonneg _) (by norm_num)
    have t2 : |sP - sS| * |min lS (1 - lS)| ≤ (1/200) * (1/2) :=
      mul_le_mul hs hmSabs (abs_nonneg _) (by norm_num)
    linarith
  constructor
  · have e : (lP + sP * min lP (1 - lP)) - (lS + sS * min lS (1 - lS))
        = (lP - lS) + (sP * min lP (1 - lP) - sS * min lS (1 - lS)) := by ring
    rw [e]
    refine le_trans (abs_add _ _) ?_
    linarith
  · have e : (lP - sP * min lP (1 - lP)) - (lS - sS * min lS (1 - lS))
        = (lP - lS) + -(sP * min lP (1 - lP) - sS * min lS (1 - lS)) := by ring
    rw [e]
    refine le_trans (abs_add _ _) ?_
    rw [abs_neg]
    linarith

/-- Per-channel bound for the chromatic branch: the rounded `hue2rgb`
output is within 5 of the original integer channel. -/
lemma channel_bound (pP qP tP m d c' tS : ℚ) (C : ℤ)
    (hC : (C : ℚ) = c' * 255)
    (hd0 : 0 < d) (hd1 : d ≤ 1)
    (hp : |pP - m| ≤ 1/80) (hq : |qP - (m + d)| ≤ 1/80)
    (hts : lamW tS = (c' - m) / d) (ht : |tP - tS| ≤ 1/720)
    (htP1 : -1/3 ≤ tP) (htP2 : tP ≤ 4/3) (htS1 : -1/3 ≤ tS) (htS2 : tS ≤ 4/3) :
    |round (hue2rgb pP qP tP * 255) - C| ≤ 5 := by
  obtain ⟨hlam0, hlam1⟩ := lamW_mem (t := tP) (by linarith) (by linarith)
  have hliplam : |lamW tP - lamW tS| ≤ 6 * |tP - tS| :=
    lamW_lip tP tS htP1 htP2 htS1 htS2 ht
  have hcm : c' = m + d * lamW tS := by
    rw [hts]
    field_simp
  have hdec : hue2rgb pP qP tP - c'
      = (pP - m) * (1 - lamW tP) + (qP - (m + d)) * lamW tP
        + d * (lamW tP - lamW tS) := by
    rw [hue2rgb_eq, hcm]
    ring
  have hval : |hue2rgb pP qP tP - c'| ≤ 1/48 := by
    rw [hdec]
    refine le_trans (abs_add _ _) ?_
    refine le_trans (add_le_add_right (abs_add _ _) _) ?_
    have t1 : |(pP - m) * (1 - lamW tP)| ≤ (1/80) * (1 - lamW tP) := by
      rw [abs_mul, abs_of_nonneg (by linarith : (0:ℚ) ≤ 1 - lamW tP)]
      exact mul_le_mul_of_nonneg_right hp (by linarith)
    have t2 : |(qP - (m + d)) * lamW tP| ≤ (1/80) * lamW tP := by
      rw [abs_mul, abs_of_nonneg hlam0]
      exact mul_le_mul_of_nonneg_right hq hlam0
    have t3 : |d * (lamW tP - lamW tS)| ≤ 1/120 := by
      rw [abs_mul, abs_of_nonneg hd0.le]
      calc d * |lamW tP - lamW tS| ≤ 1 * (6 * (1/720)) := by
            refine mul_le_mul hd1 ?_ (abs_nonneg _) (by norm_num)
            refine le_trans hliplam ?_
            linarith [mul_le_mul_of_nonneg_left ht (by norm_num : (0:ℚ) ≤ 6)]
        _ = 1/120 := by norm_num
    linarith
  have hround : |(round (hue2rgb pP qP tP * 255) : ℚ) - hue2rgb pP qP tP * 255| ≤ 1/2 := by
    rw [abs_sub_comm]
    exact abs_sub_round _
  have hscale : |hue2rgb pP qP tP * 255 - c' * 255| ≤ 255/48 := by
    rw [show hue2rgb pP qP tP * 255 - c' * 255 = (hue2rgb pP qP tP - c') * 255 by ring,
      abs_mul, abs_of_nonneg (by norm_num : (0:ℚ) ≤ 255)]
    calc |hue2rgb pP qP tP - c'| * 255 ≤ (1/48) * 255 :=
          mul_le_mul_of_nonneg_right hval (by norm_num)
      _ = 255/48 := by ring
  have htot : |(round (hue2rgb pP qP tP * 255) : ℚ) - (C : ℚ)| ≤ 93/16 := by
    have e : (round (hue2rgb pP qP tP * 255) : ℚ) - (C : ℚ)
        = ((round (hue2rgb pP qP tP * 255) : ℚ) - hue2rgb pP qP tP * 255)
          + (hue2rgb pP qP tP * 255 - c' * 255) := by
      rw [hC]
      ring
    rw [e]
    refine le_trans (abs_add _ _) ?_
    linarith
  by_contra hcon
  push_neg at hcon
  have h6 : (6:ℤ) ≤ |round (hue2rgb pP qP tP * 255) - C| := by omega
  have h6q : (6:ℚ) ≤ |(round (hue2rgb pP qP tP * 255) : ℚ) - (C : ℚ)| := by
    exact_mod_cast h6
  linarith

/-- Channel bound for the gray outputs (achromatic branch and the
saturation-rounds-to-zero case). -/
lemma gray_channel (lS cS : ℚ) (C : ℤ) (hC : (C : ℚ) = cS * 255)
    (hclose : |cS - lS| ≤ 1/200) :
    |round (((round (lS * 100) : ℚ) / 100) * 255) - C| ≤ 5 := by
  have h1 : |(round (lS * 100) : ℚ) / 100 - lS| ≤ 1/200 := by
    have := round_scale lS 100 (by norm_num)
    calc |(round (lS * 100) : ℚ) / 100 - lS| ≤ 1 / (2 * 100) := this
      _ = 1/200 := by norm_num
  have h2 : |(round (lS * 100) : ℚ) / 100 * 255 - cS * 255| ≤ 2 * (255/200) := by
    rw [show (round (lS * 100) : ℚ) / 100 * 255 - cS * 255
      = (((round (lS * 100) : ℚ) / 100 - lS) + (lS - cS)) * 255 by ring, abs_mul,
      abs_of_nonneg (by norm_num : (0:ℚ) ≤ 255)]
    have hsum : |((round (lS * 100) : ℚ) / 100 - lS) + (lS - cS)| ≤ 1/200 + 1/200 := by
      refine le_trans (abs_add _ _) ?_
      rw [abs_sub_comm lS cS]
      linarith
    calc |((round (lS * 100) : ℚ) / 100 - lS) + (lS - cS)| * 255
        ≤ (1/200 + 1/200) * 255 := mul_le_mul_of_nonneg_right hsum (by norm_num)
      _ = 2 * (255/200) := by ring
  have h3 : |(round ((round (lS * 100) : ℚ) / 100 * 255) : ℚ)
      - (round (lS * 100) : ℚ) / 100 * 255| ≤ 1/2 := by
    rw [abs_sub_comm]
    exact abs_sub_round _
  have htot : |(round ((round (lS * 100) : ℚ) / 100 * 255) : ℚ) - (C : ℚ)| ≤ 1/2 + 2 * (255/200) := by
    have e : (round ((round (lS * 100) : ℚ) / 100 * 255) : ℚ) - (C : ℚ)
        = ((round ((round (lS * 100) : ℚ) / 100 * 255) : ℚ)
            - (round (lS * 100) : ℚ) / 100 * 255)
          + ((round (lS * 100) : ℚ) / 100 * 255 - cS * 255) := by
      rw [hC]
      ring
    rw [e]
    exact le_trans (abs_add _ _) (add_le_add h3 h2)
  by_contra hcon
  push_neg at hcon
  have h6 : (6:ℤ) ≤ |round ((round (lS * 100) : ℚ) / 100 * 255) - C| := by omega
  have h6q : (6:ℚ) ≤ |(round ((round (lS * 100) : ℚ) / 100 * 255) : ℚ) - (C : ℚ)| := by
    exact_mod_cast h6
  linarith

lemma rgbToHsl_eq_achromatic (r g b : ℚ) (h : maxCof r g b = minCof r g b) :
    rgbToHsl r g b = (0, 0, round (lVal r g b * 100)) := by
  simp only [maxCof, minCof] at h
  simp only [rgbToHsl, lVal, maxCof, minCof]
  rw [if_pos h]

lemma rgbToHsl_eq_chromatic (r g b : ℚ) (h : maxCof r g b ≠ minCof r g b) :
    rgbToHsl r g b = (round (hueVal r g b * 360), round (satVal r g b * 100),
      round (lVal r g b * 100)) := by
  simp only [maxCof, minCof] at h
  simp only [rgbToHsl, hueVal, satVal, lVal, dVal, maxCof, minCof]
  rw [if_neg h]

lemma hslToRgb_eq_szero (h s l : ℚ) (hs : s / 100 = 0) :
    hslToRgb h s l = (round (l / 100 * 255), round (l / 100 * 255),
      round (l / 100 * 255)) := by
  simp only [hslToRgb]
  rw [if_pos hs]

lemma hslToRgb_eq_pos (h s l : ℚ) (hs : s / 100 ≠ 0) :
    hslToRgb h s l =
      (round (hue2rgb (2 * (l / 100) - (l / 100 + s / 100 * min (l / 100) (1 - l / 100)))
        (l / 100 + s / 100 * min (l / 100) (1 - l / 100)) (h / 360 + 1/3) * 255),
       round (hue2rgb (2 * (l / 100) - (l / 100 + s / 100 * min (l / 100) (1 - l / 100)))
        (l / 100 + s / 100 * min (l / 100) (1 - l / 100)) (h / 360) * 255),
       round (hue2rgb (2 * (l / 100) - (l / 100 + s / 100 * min (l / 100) (1 - l / 100)))
        (l / 100 + s / 100 * min (l / 100) (1 - l / 100)) (h / 360 - 1/3) * 255)) := by
  simp only [hslToRgb]
  rw [if_neg hs, qform (l / 100) (s / 100)]

lemma maxCof_facts (r g b : ℚ) :
    r / 255 ≤ maxCof r g b ∧ g / 255 ≤ maxCof r g b ∧ b / 255 ≤ maxCof r g b ∧
    minCof r g b ≤ r / 255 ∧ minCof r g b ≤ g / 255 ∧ minCof r g b ≤ b / 255 :=
  ⟨le_max_left _ _, le_trans (le_max_left _ _) (le_max_right _ _),
    le_trans (le_max_right _ _) (le_max_right _ _), min_le_left _ _,
    le_trans (min_le_right _ _) (min_le_left _ _),
    le_trans (min_le_right _ _) (min_le_right _ _)⟩

lemma minCof_nonneg (r g b : ℚ) (hr : 0 ≤ r) (hg : 0 ≤ g) (hb : 0 ≤ b) :
    0 ≤ minCof r g b :=
  le_min (by positivity) (le_min (by positivity) (by positivity))

lemma maxCof_le_one (r g b : ℚ) (hr : r ≤ 255) (hg : g ≤ 255) (hb : b ≤ 255) :
    maxCof r g b ≤ 1 :=
  max_le (by linarith) (max_le (by linarith) (by linarith))

lemma hueVal_mem (r g b : ℚ) (h : minCof r g b < maxCof r g b) :
    0 ≤ hueVal r g b ∧ hueVal r g b ≤ 1 := by
  obtain ⟨hrle, hgle, hble, hrge, hgge, hbge⟩ := maxCof_facts r g b
  have hd0 : 0 < dVal r g b := by rw [dVal]; linarith
  have hdd : dVal r g b = maxCof r g b - minCof r g b := rfl
  rw [hueVal]
  constructor
  · split
    · split
      · next hgb =>
        have hq : (g / 255 - b / 255) / dVal r g b ≥ -1 := by
          rw [ge_iff_le, neg_le, ← neg_div, div_le_one hd0]
          linarith
        linarith
      · next hgb =>
        have hq : (g / 255 - b / 255) / dVal r g b ≥ 0 := by
          apply div_nonneg _ hd0.le
          push_neg at hgb
          linarith
        linarith
    · split
      · have hq : (b / 255 - r / 255) / dVal r g b ≥ -1 := by
          rw [ge_iff_le, neg_le, ← neg_div, div_le_one hd0]
          linarith
        linarith
      · have hq : (r / 255 - g / 255) / dVal r g b ≥ -1 := by
          rw [ge_iff_le, neg_le, ← neg_div, div_le_one hd0]
          linarith
        linarith
  · split
    · next hmr =>
      split
      · next hgb =>
        have hq : (g / 255 - b / 255) / dVal r g b ≤ 0 :=
          div_nonpos_of_nonpos_of_nonneg (by linarith) hd0.le
        linarith
      · next hgb =>
        have hq : (g / 255 - b / 255) / dVal r g b ≤ 1 := by
          rw [div_le_one hd0]
          linarith
        linarith
    · split
      · have hq : (b / 255 - r / 255) / dVal r g b ≤ 1 := by
          rw [div_le_one hd0]
          linarith
        linarith
      · have hq : (r / 255 - g / 255) / dVal r g b ≤ 1 := by
          rw [div_le_one hd0]
          linarith
        linarith

lemma satVal_mem (r g b : ℚ) (hm0 : 0 ≤ minCof r g b) (hM1 : maxCof r g b ≤ 1)
    (h : minCof r g b < maxCof r g b) :
    0 ≤ satVal r g b ∧ satVal r g b ≤ 1 := by
  have hd0 : 0 < dVal r g b := by rw [dVal]; linarith
  have hdd : dVal r g b = maxCof r g b - minCof r g b := rfl
  have hlv : lVal r g b = (maxCof r g b + minCof r g b) / 2 := rfl
  rw [satVal]
  constructor
  · split
    · next hl =>
      rw [hlv] at hl
      exact div_nonneg hd0.le (by linarith)
    · next hl =>
      exact div_nonneg hd0.le (by linarith)
  · split
    · next hl =>
      rw [hlv] at hl
      have hden : (0:ℚ) < 2 - maxCof r g b - minCof r g b := by linarith
      rw [div_le_one hden]
      linarith
    · next hl =>
      have hden : (0:ℚ) < maxCof r g b + minCof r g b := by linarith
      rw [div_le_one hden]
      linarith

end LemmasC8

section ClaimC8

set_option maxHeartbeats 2000000 in
/-- *C8 (corrected).* Round trip: converting an integer RGB triple (each
channel in 0..255) to rounded HSL and back reproduces every channel to
within ±5 — not the ±1 the spec claims. The bound follows from exactness
of the unrounded inverse plus Lipschitz bounds on the rounding
perturbations; the tolerance 5 is attained (e.g. at (2,228,230)), and
`roundTrip 255 2 0` already errs by 2 on the green channel. -/
theorem roundTrip_within_five (r g b : ℕ) (hr : r ≤ 255) (hg : g ≤ 255) (hb : b ≤ 255) :
    |(roundTrip (r:ℚ) (g:ℚ) (b:ℚ)).1 - (r : ℤ)| ≤ 5 ∧
    |(roundTrip (r:ℚ) (g:ℚ) (b:ℚ)).2.1 - (g : ℤ)| ≤ 5 ∧
    |(roundTrip (r:ℚ) (g:ℚ) (b:ℚ)).2.2 - (b : ℤ)| ≤ 5 := by
  have hr0 : (0:ℚ) ≤ (r:ℚ) := Nat.cast_nonneg r
  have hg0 : (0:ℚ) ≤ (g:ℚ) := Nat.cast_nonneg g
  have hb0 : (0:ℚ) ≤ (b:ℚ) := Nat.cast_nonneg b
  have hr1 : (r:ℚ) ≤ 255 := by exact_mod_cast hr
  have hg1 : (g:ℚ) ≤ 255 := by exact_mod_cast hg
  have hb1 : (b:ℚ) ≤ 255 := by exact_mod_cast hb
  obtain ⟨hrle, hgle, hble, hrge, hgge, hbge⟩ := maxCof_facts (r:ℚ) (g:ℚ) (b:ℚ)
  have hm0 : 0 ≤ minCof (r:ℚ) (g:ℚ) (b:ℚ) := minCof_nonneg _ _ _ hr0 hg0 hb0
  have hM1 : maxCof (r:ℚ) (g:ℚ) (b:ℚ) ≤ 1 := maxCof_le_one _ _ _ hr1 hg1 hb1
  have hmM : minCof (r:ℚ) (g:ℚ) (b:ℚ) ≤ maxCof (r:ℚ) (g:ℚ) (b:ℚ) := le_trans hrge hrle
  have hlv : lVal (r:ℚ) (g:ℚ) (b:ℚ)
      = (maxCof (r:ℚ) (g:ℚ) (b:ℚ) + minCof (r:ℚ) (g:ℚ) (b:ℚ)) / 2 := rfl
  have hdv : dVal (r:ℚ) (g:ℚ) (b:ℚ)
      = maxCof (r:ℚ) (g:ℚ) (b:ℚ) - minCof (r:ℚ) (g:ℚ) (b:ℚ) := rfl
  have hCr : (((r:ℤ)):ℚ) = ((r:ℚ)/255) * 255 := by
    push_cast
    rw [div_mul_cancel₀ _ (by norm_num : (255:ℚ) ≠ 0)]
  have hCg : (((g:ℤ)):ℚ) = ((g:ℚ)/255) * 255 := by
    push_cast
    rw [div_mul_cancel₀ _ (by norm_num : (255:ℚ) ≠ 0)]
  have hCb : (((b:ℤ)):ℚ) = ((b:ℚ)/255) * 255 := by
    push_cast
    rw [div_mul_cancel₀ _ (by norm_num : (255:ℚ) ≠ 0)]
  by_cases hach : maxCof (r:ℚ) (g:ℚ) (b:ℚ) = minCof (r:ℚ) (g:ℚ) (b:ℚ)
  · -- achromatic: all three channels coincide with the lightness
    have hre : |(r:ℚ)/255 - lVal (r:ℚ) (g:ℚ) (b:ℚ)| ≤ 1/200 := by
      have h1 : (r:ℚ)/255 ≤ minCof (r:ℚ) (g:ℚ) (b:ℚ) := hach ▸ hrle
      rw [abs_le]
      constructor <;> [skip; skip] <;> rw [hlv] <;> linarith
    have hge : |(g:ℚ)/255 - lVal (r:ℚ) (g:ℚ) (b:ℚ)| ≤ 1/200 := by
      have h1 : (g:ℚ)/255 ≤ minCof (r:ℚ) (g:ℚ) (b:ℚ) := hach ▸ hgle
      rw [abs_le]
      constructor <;> rw [hlv] <;> linarith
    have hbe : |(b:ℚ)/255 - lVal (r:ℚ) (g:ℚ) (b:ℚ)| ≤ 1/200 := by
      have h1 : (b:ℚ)/255 ≤ minCof (r:ℚ) (g:ℚ) (b:ℚ) := hach ▸ hble
      rw [abs_le]
      constructor <;> rw [hlv] <;> linarith
    have hrgb := rgbToHsl_eq_achromatic (r:ℚ) (g:ℚ) (b:ℚ) hach
    have hrt : roundTrip (r:ℚ) (g:ℚ) (b:ℚ)
        = hslToRgb ((0:ℤ):ℚ) ((0:ℤ):ℚ) ((round (lVal (r:ℚ) (g:ℚ) (b:ℚ) * 100) : ℤ):ℚ) := by
      simp only [roundTrip, hrgb]
    rw [hrt, hslToRgb_eq_szero _ _ _ (by norm_num)]
    exact ⟨gray_channel _ _ _ hCr hre, gray_channel _ _ _ hCg hge,
      gray_channel _ _ _ hCb hbe⟩
  · -- chromatic
    have hlt : minCof (r:ℚ) (g:ℚ) (b:ℚ) < maxCof (r:ℚ) (g:ℚ) (b:ℚ) :=
      lt_of_le_of_ne hmM (fun h => hach h.symm)
    have hd0 : 0 < dVal (r:ℚ) (g:ℚ) (b:ℚ) := by rw [hdv]; linarith
    have hd1 : dVal (r:ℚ) (g:ℚ) (b:ℚ) ≤ 1 := by rw [hdv]; linarith
    have hl01 : 0 ≤ lVal (r:ℚ) (g:ℚ) (b:ℚ) ∧ lVal (r:ℚ) (g:ℚ) (b:ℚ) ≤ 1 := by
      rw [hlv]
      exact ⟨by linarith, by linarith⟩
    obtain ⟨hh0, hh1⟩ := hueVal_mem (r:ℚ) (g:ℚ) (b:ℚ) hlt
    obtain ⟨hs0, hs1⟩ := satVal_mem (r:ℚ) (g:ℚ) (b:ℚ) hm0 hM1 hlt
    have hrgb := rgbToHsl_eq_chromatic (r:ℚ) (g:ℚ) (b:ℚ) hach
    have hrt : roundTrip (r:ℚ) (g:ℚ) (b:ℚ)
        = hslToRgb ((round (hueVal (r:ℚ) (g:ℚ) (b:ℚ) * 360) : ℤ):ℚ)
          ((round (satVal (r:ℚ) (g:ℚ) (b:ℚ) * 100) : ℤ):ℚ)
          ((round (lVal (r:ℚ) (g:ℚ) (b:ℚ) * 100) : ℤ):ℚ) := by
      simp only [roundTrip, hrgb]
    set H : ℤ := round (hueVal (r:ℚ) (g:ℚ) (b:ℚ) * 360) with hH
    set S : ℤ := round (satVal (r:ℚ) (g:ℚ) (b:ℚ) * 100) with hS
    set L : ℤ := round (lVal (r:ℚ) (g:ℚ) (b:ℚ) * 100) with hL
    have hS0 : (0:ℤ) ≤ S := by
      rw [hS]
      exact round_nonneg_of (mul_nonneg hs0 (by norm_num))
    have hS100 : S ≤ 100 := by
      rw [hS]
      exact round_le_int (by push_cast; linarith)
    have hH0 : (0:ℤ) ≤ H := by
      rw [hH]
      exact round_nonneg_of (mul_nonneg hh0 (by norm_num))
    have hH360 : H ≤ 360 := by
      rw [hH]
      exact round_le_int (by push_cast; linarith)
    have hHq0 : (0:ℚ) ≤ (H:ℚ)/360 := by
      have : (0:ℚ) ≤ (H:ℚ) := by exact_mod_cast hH0
      linarith
    have hHq1 : (H:ℚ)/360 ≤ 1 := by
      have : (H:ℚ) ≤ 360 := by exact_mod_cast hH360
      linarith
    have hSq0 : (0:ℚ) ≤ (S:ℚ)/100 := by
      have : (0:ℚ) ≤ (S:ℚ) := by exact_mod_cast hS0
      linarith
    have hSq1 : (S:ℚ)/100 ≤ 1 := by
      have : (S:ℚ) ≤ 100 := by exact_mod_cast hS100
      linarith
    have hhd : |(H:ℚ)/360 - hueVal (r:ℚ) (g:ℚ) (b:ℚ)| ≤ 1/720 := by
      have h := round_scale (hueVal (r:ℚ) (g:ℚ) (b:ℚ)) 360 (by norm_num)
      rw [← hH] at h
      norm_num at h
      exact h
    have hsd : |(S:ℚ)/100 - satVal (r:ℚ) (g:ℚ) (b:ℚ)| ≤ 1/200 := by
      have h := round_scale (satVal (r:ℚ) (g:ℚ) (b:ℚ)) 100 (by norm_num)
      rw [← hS] at h
      norm_num at h
      exact h
    have hld : |(L:ℚ)/100 - lVal (r:ℚ) (g:ℚ) (b:ℚ)| ≤ 1/200 := by
      have h := round_scale (lVal (r:ℚ) (g:ℚ) (b:ℚ)) 100 (by norm_num)
      rw [← hL] at h
      norm_num at h
      exact h
    have hsmin : satVal (r:ℚ) (g:ℚ) (b:ℚ)
        * min (lVal (r:ℚ) (g:ℚ) (b:ℚ)) (1 - lVal (r:ℚ) (g:ℚ) (b:ℚ))
        = dVal (r:ℚ) (g:ℚ) (b:ℚ) / 2 := by
      simp only [satVal, lVal, dVal]
      exact sform _ _ hlt hm0 hM1
    have hminl2 : min (lVal (r:ℚ) (g:ℚ) (b:ℚ)) (1 - lVal (r:ℚ) (g:ℚ) (b:ℚ)) ≤ 1/2 := by
      rcases le_total (lVal (r:ℚ) (g:ℚ) (b:ℚ)) (1 - lVal (r:ℚ) (g:ℚ) (b:ℚ)) with h | h
      · rw [min_eq_left h]
        linarith
      · rw [min_eq_right h]
        linarith
    by_cases hSz : S = 0
    · -- saturation rounds to zero: gray output, but the spread is tiny
      have hsmall : satVal (r:ℚ) (g:ℚ) (b:ℚ) ≤ 1/200 := by
        have habs := abs_le.mp hsd
        rw [hSz] at habs
        push_cast at habs
        linarith [habs.1]
      have hdle : dVal (r:ℚ) (g:ℚ) (b:ℚ) ≤ 1/100 := by
        have h1 : dVal (r:ℚ) (g:ℚ) (b:ℚ) / 2 ≤ satVal (r:ℚ) (g:ℚ) (b:ℚ) * (1/2) := by
          rw [← hsmin]
          exact mul_le_mul_of_nonneg_left hminl2 hs0
        linarith
      have hre : |(r:ℚ)/255 - lVal (r:ℚ) (g:ℚ) (b:ℚ)| ≤ 1/200 := by
        rw [abs_le]
        constructor <;> rw [hlv] <;> rw [hdv] at hdle <;> linarith
      have hge : |(g:ℚ)/255 - lVal (r:ℚ) (g:ℚ) (b:ℚ)| ≤ 1/200 := by
        rw [abs_le]
        constructor <;> rw [hlv] <;> rw [hdv] at hdle <;> linarith
      have hbe : |(b:ℚ)/255 - lVal (r:ℚ) (g:ℚ) (b:ℚ)| ≤ 1/200 := by
        rw [abs_le]
        constructor <;> rw [hlv] <;> rw [hdv] at hdle <;> linarith
      rw [hrt, hSz, hslToRgb_eq_szero _ _ _ (by norm_num)]
      exact ⟨gray_channel _ _ _ hCr hre, gray_channel _ _ _ hCg hge,
        gray_channel _ _ _ hCb hbe⟩
    · -- saturated output: full interpolation analysis
      have hSne : ((S:ℚ))/100 ≠ 0 := by
        intro h0
        apply hSz
        field_simp at h0
        exact_mod_cast h0
      obtain ⟨hqd, hpd⟩ := qp_delta ((L:ℚ)/100) ((S:ℚ)/100)
        (lVal (r:ℚ) (g:ℚ) (b:ℚ)) (satVal (r:ℚ) (g:ℚ) (b:ℚ)) hld hsd hSq0 hSq1
        hl01.1 hl01.2
      have hqstar : lVal (r:ℚ) (g:ℚ) (b:ℚ) + satVal (r:ℚ) (g:ℚ) (b:ℚ)
          * min (lVal (r:ℚ) (g:ℚ) (b:ℚ)) (1 - lVal (r:ℚ) (g:ℚ) (b:ℚ))
          = minCof (r:ℚ) (g:ℚ) (b:ℚ) + dVal (r:ℚ) (g:ℚ) (b:ℚ) := by
        rw [hsmin, hlv, hdv]
        ring
      have hpstar : lVal (r:ℚ) (g:ℚ) (b:ℚ) - satVal (r:ℚ) (g:ℚ) (b:ℚ)
          * min (lVal (r:ℚ) (g:ℚ) (b:ℚ)) (1 - lVal (r:ℚ) (g:ℚ) (b:ℚ))
          = minCof (r:ℚ) (g:ℚ) (b:ℚ) := by
        rw [hsmin, hlv, hdv]
        ring
      obtain ⟨hexR, hexG, hexB⟩ := hue_exact ((r:ℚ)/255) ((g:ℚ)/255) ((b:ℚ)/255)
        (maxCof (r:ℚ) (g:ℚ) (b:ℚ)) (minCof (r:ℚ) (g:ℚ) (b:ℚ))
        (dVal (r:ℚ) (g:ℚ) (b:ℚ)) (hueVal (r:ℚ) (g:ℚ) (b:ℚ)) rfl rfl rfl hlt rfl
      have hpP : |2 * ((L:ℚ)/100)
          - ((L:ℚ)/100 + (S:ℚ)/100 * min ((L:ℚ)/100) (1 - (L:ℚ)/100))
          - minCof (r:ℚ) (g:ℚ) (b:ℚ)| ≤ 1/80 := by
        rw [show 2 * ((L:ℚ)/100)
            - ((L:ℚ)/100 + (S:ℚ)/100 * min ((L:ℚ)/100) (1 - (L:ℚ)/100))
            = (L:ℚ)/100 - (S:ℚ)/100 * min ((L:ℚ)/100) (1 - (L:ℚ)/100) by ring,
          ← hpstar]
        exact hpd
      have hqP : |(L:ℚ)/100 + (S:ℚ)/100 * min ((L:ℚ)/100) (1 - (L:ℚ)/100)
          - (minCof (r:ℚ) (g:ℚ) (b:ℚ) + dVal (r:ℚ) (g:ℚ) (b:ℚ))| ≤ 1/80 := by
        rw [← hqstar]
        exact hqd
      rw [hrt, hslToRgb_eq_pos _ _ _ hSne]
      refine ⟨?_, ?_, ?_⟩
      · refine channel_bound _ _ _ _ _ _ _ _ hCr hd0 hd1 hpP hqP hexR ?_ ?_ ?_ ?_ ?_
        · rw [show (H:ℚ)/360 + 1/3 - (hueVal (r:ℚ) (g:ℚ) (b:ℚ) + 1/3)
            = (H:ℚ)/360 - hueVal (r:ℚ) (g:ℚ) (b:ℚ) by ring]
          exact hhd
        · linarith
        · linarith
        · linarith
        · linarith
      · refine channel_bound _ _ _ _ _ _ _ _ hCg hd0 hd1 hpP hqP hexG ?_ ?_ ?_ ?_ ?_
        · exact hhd
        · linarith
        · linarith
        · linarith
        · linarith
      · refine channel_bound _ _ _ _ _ _ _ _ hCb hd0 hd1 hpP hqP hexB ?_ ?_ ?_ ?_ ?_
        · rw [show (H:ℚ)/360 - 1/3 - (hueVal (r:ℚ) (g:ℚ) (b:ℚ) - 1/3)
            = (H:ℚ)/360 - hueVal (r:ℚ) (g:ℚ) (b:ℚ) by ring]
          exact hhd
        · linarith
        · linarith
        · linarith
        · linarith

theorem roundTrip_within_five_witness :
    |(roundTrip ((255:ℕ):ℚ) ((2:ℕ):ℚ) ((0:ℕ):ℚ)).1 - ((255:ℕ):ℤ)| ≤ 5 ∧
    |(roundTrip ((255:ℕ):ℚ) ((2:ℕ):ℚ) ((0:ℕ):ℚ)).2.1 - ((2:ℕ):ℤ)| ≤ 5 ∧
    |(roundTrip ((255:ℕ):ℚ) ((2:ℕ):ℚ) ((0:ℕ):ℚ)).2.2 - ((0:ℕ):ℤ)| ≤ 5 :=
  roundTrip_within_five 255 2 0 (by norm_num) (by norm_num) (by norm_num)

/-- *C8 counterexample.* `roundTrip 255 2 0 = (255, 0, 0)`: the green
channel moves from 2 to 0, exceeding the claimed ±1 tolerance. -/
theorem roundTrip_exceeds_one_cx :
    roundTrip 255 2 0 = (255, 0, 0) ∧ ¬(|(roundTrip 255 2 0).2.1 - 2| ≤ 1) := by
  have h : roundTrip 255 2 0 = (255, 0, 0) := by with_unfolding_all decide
  refine ⟨h, ?_⟩
  rw [h]
  decide

end ClaimC8

end HueHist
